import Mathlib

/-!
# Memory manager of `hw4/src/mem/memMgr.h`

A shallow embedding of the three classes `MemBlock<T>`, `MemRecycleList<T>` and
`MemMgr<T>`.

* Addresses and `size_t` values are natural numbers; the null pointer is `0`.
  Where the source can wrap around (`toSizeT`) the result is taken modulo `2 ^ 64`.
* `S` stands for `sizeof(T)` and is a parameter of every function that uses it.
* Raw memory is a map `mem` from an address to the machine word stored there.  Only
  the first word of a piece of memory is ever read or written by the manager.
* The address handed out by `new char[b]` is not determined by the program, so every
  operation that may create a block takes it as the argument `nb`.
* A linked chain of objects is a list; a pointer into the chain is a position.
* `MemRecycleList::numElm` walks raw memory and need not terminate, so it runs on
  `fuel`; running out of fuel is reported as `Fault.diverge`.
* Every operation returns the manager as it is when the call ends, together with
  either the returned value or the way the call failed.
-/

namespace Hw4

/-- Ways in which a call ends without returning a value. -/
inductive Fault where
  /-- The call executed `throw bad_alloc()`. -/
  | badAlloc
  /-- An `assert` failed. -/
  | assertFail
  /-- A loop did not finish within the given fuel. -/
  | diverge
deriving DecidableEq, Repr

/-- The macro `SIZE_T`, that is `sizeof(size_t)` on a 64-bit platform. -/
abbrev SIZE_T : Nat := 8

/-- The number of values of the type `size_t`. -/
abbrev SIZE_MOD : Nat := 2 ^ 64

/-- The macro `R_SIZE`. -/
abbrev R_SIZE : Nat := 256

/-- The macro `toSizeT(t)`: `(!(t % SIZE_T) ? t : t - t % SIZE_T + SIZE_T)` on `size_t`. -/
def toSizeT (t : Nat) : Nat :=
  if t % SIZE_T = 0 then t else (t - t % SIZE_T + SIZE_T) % SIZE_MOD

/-- The macro `downtoSizeT(t)`: `(t - t % SIZE_T)`. -/
def downtoSizeT (t : Nat) : Nat := t - t % SIZE_T

/-! ## MemBlock -/

/-- The data members of a `MemBlock`; `_nextBlock` is the tail of the list the block
is stored in. -/
structure MemBlock where
  _begin : Nat
  _ptr : Nat
  _end : Nat
deriving DecidableEq, Repr

namespace MemBlock

/-- The constructor `MemBlock(n, b)`, where `new char[b]` returned the address `a`. -/
def new (a b : Nat) : MemBlock := { _begin := a, _ptr := a, _end := a + b }

/-- The method `MemBlock::reset`. -/
def reset (blk : MemBlock) : MemBlock := { blk with _ptr := blk._begin }

/-- The method `MemBlock::getRemainSize`.  No method moves `_ptr` past `_end`, so the
pointer difference `_end - _ptr` is not negative. -/
def getRemainSize (blk : MemBlock) : Nat := blk._end - blk._ptr

/-- The method `MemBlock::getMem(t, ret)`: the block afterwards, the returned flag and
the value left in `ret`. -/
def getMem (blk : MemBlock) (t : Nat) : MemBlock × Bool × Nat :=
  if toSizeT t > blk.getRemainSize then (blk, false, blk._ptr)
  else ({ blk with _ptr := blk._ptr + toSizeT t }, true, blk._ptr)

end MemBlock

/-! ## MemRecycleList -/

/-- The data members `_arrSize` and `_first` of a `MemRecycleList`; `_nextList` is the
tail of the chain the object is stored in. -/
structure MemRecycleList where
  _arrSize : Nat
  _first : Nat
deriving DecidableEq, Repr

namespace MemRecycleList

/-- The method `MemRecycleList::popFront`: the list afterwards and the returned pointer. -/
def popFront (mem : Nat → Nat) (l : MemRecycleList) : MemRecycleList × Nat :=
  if l._first = 0 then (l, 0) else ({ l with _first := mem l._first }, l._first)

/-- The method `MemRecycleList::pushFront(p)`: the memory and the list afterwards. -/
def pushFront (mem : Nat → Nat) (l : MemRecycleList) (p : Nat) :
    (Nat → Nat) × MemRecycleList :=
  (Function.update mem p l._first, { l with _first := p })

/-- The loop of `MemRecycleList::numElm`, started at the pointer `p`. -/
def numElmFrom (mem : Nat → Nat) : Nat → Nat → Option Nat
  | 0, p => if p = 0 then some 0 else none
  | fuel + 1, p => if p = 0 then some 0 else (numElmFrom mem fuel (mem p)).map (· + 1)

/-- The method `MemRecycleList::numElm`. -/
def numElm (fuel : Nat) (mem : Nat → Nat) (l : MemRecycleList) : Option Nat :=
  numElmFrom mem fuel l._first

end MemRecycleList

/-- One entry `_recycleList[i]` of the table: the object stored in the array and the
objects reached from it through `_nextList`, in that order. -/
structure RecycleChain where
  head : MemRecycleList
  rest : List MemRecycleList
deriving DecidableEq, Repr

namespace RecycleChain

/-- The object at position `j` of the chain; position `0` is the entry itself. -/
def get (c : RecycleChain) : Nat → MemRecycleList
  | 0 => c.head
  | j + 1 => c.rest.getD j c.head

/-- The chain with the object at position `j` replaced. -/
def set (c : RecycleChain) (j : Nat) (l : MemRecycleList) : RecycleChain :=
  match j with
  | 0 => { c with head := l }
  | j + 1 => { c with rest := c.rest.set j l }

/-- The method `MemRecycleList::reset` called on the entry: the chain behind it is
deleted and `_first` is cleared; `_arrSize` stays. -/
def reset (c : RecycleChain) : RecycleChain :=
  { head := { c.head with _first := 0 }, rest := [] }

/-- The `for` loop of `MemMgr::getMemRecycleList`, with `i` iterations left and
`_test_list` at position `j`.  The result says whether the loop returned, and the
position of `_test_list` at that moment. -/
def search (c : RecycleChain) (n : Nat) : Nat → Nat → Bool × Nat
  | 0, j => (false, j)
  | i + 1, j =>
    if (c.get j)._arrSize = n then (true, j)
    else if j < c.rest.length then search c n i (j + 1)
    else search c n i j

end RecycleChain

/-! ## MemMgr -/

/-- The data members of a `MemMgr`, and the raw memory it works on.  `_nextBlocks` are
the blocks reached from `_activeBlock` through `_nextBlock`, newest first. -/
structure MemMgr where
  _blockSize : Nat
  _activeBlock : MemBlock
  _nextBlocks : List MemBlock
  _recycleList : Fin R_SIZE → RecycleChain
  mem : Nat → Nat

/-- The slot `n % R_SIZE` of the table. -/
def slotOf (n : Nat) : Fin R_SIZE := ⟨n % R_SIZE, Nat.mod_lt n (by decide)⟩

/-- The method `MemMgr::getArraySize(t)` with its two assertions.  Behind them `t` is a
word multiple of at least `S`, and `S = sizeof(T)` is at least 1, so `t - SIZE_T` does
not wrap around. -/
def getArraySize (S t : Nat) : Except Fault Nat :=
  if t % SIZE_T ≠ 0 then .error .assertFail
  else if t < S then .error .assertFail
  else .ok ((t - SIZE_T) / S)

namespace MemMgr

/-- The body of the constructor `MemMgr(b)` behind its assertion, where `new char[b]`
returned the address `nb`. -/
def init (b nb : Nat) (mem : Nat → Nat) : MemMgr :=
  { _blockSize := b
    _activeBlock := MemBlock.new nb b
    _nextBlocks := []
    _recycleList := fun i => { head := { _arrSize := i.val, _first := 0 }, rest := [] }
    mem := mem }

/-- The constructor `MemMgr(b)`. -/
def new (b nb : Nat) (mem : Nat → Nat) : Except Fault MemMgr :=
  if b % SIZE_T ≠ 0 then .error .assertFail else .ok (init b nb mem)

/-- The method `MemMgr::getNumBlocks`. -/
def getNumBlocks (st : MemMgr) : Nat := 1 + st._nextBlocks.length

/-- The method `MemMgr::getMemRecycleList(n)`.  The returned pointer is given as the
slot and the position in the chain of that slot. -/
def getMemRecycleList (fuel : Nat) (st : MemMgr) (n : Nat) :
    MemMgr × Except Fault (Fin R_SIZE × Nat) :=
  match (st._recycleList (slotOf n)).head.numElm fuel st.mem with
  | none => (st, .error .diverge)
  | some cnt =>
    match (st._recycleList (slotOf n)).search n cnt 0 with
    | (true, j) => (st, .ok (slotOf n, j))
    | (false, j) =>
      ({ st with
          _recycleList := Function.update st._recycleList (slotOf n)
            { head := (st._recycleList (slotOf n)).head
              rest := (st._recycleList (slotOf n)).rest.take j ++
                [{ _arrSize := n, _first := 0 }] } },
        .ok (slotOf n, j + 1))

/-- A call of `popFront` through the pointer `(m, j)`. -/
def popFrontAt (st : MemMgr) (m : Fin R_SIZE) (j : Nat) : MemMgr × Nat :=
  ({ st with
      _recycleList := Function.update st._recycleList m
        ((st._recycleList m).set j (((st._recycleList m).get j).popFront st.mem).1) },
    (((st._recycleList m).get j).popFront st.mem).2)

/-- A call of `pushFront(p)` through the pointer `(m, j)`. -/
def pushFrontAt (st : MemMgr) (m : Fin R_SIZE) (j : Nat) (p : Nat) : MemMgr :=
  { st with
    _recycleList := Function.update st._recycleList m
      ((st._recycleList m).set j (((st._recycleList m).get j).pushFront st.mem p).2)
    mem := (((st._recycleList m).get j).pushFront st.mem p).1 }

/-- Step 3 of `MemMgr::getMem`, for the promoted size `t`:
`n = getArraySize(t); ret = getMemRecycleList(n)->popFront();`. -/
def probe (S fuel : Nat) (st : MemMgr) (t : Nat) : MemMgr × Except Fault Nat :=
  match getArraySize S t with
  | .error e => (st, .error e)
  | .ok n =>
    match st.getMemRecycleList fuel n with
    | (st1, .error e) => (st1, .error e)
    | (st1, .ok (m, j)) => ((st1.popFrontAt m j).1, .ok (st1.popFrontAt m j).2)

/-- The block `// recyclic ret` of `MemMgr::getMem`: what is left of the active block
is pushed on a recycle list when `remain_size > S`. -/
def recycleRemain (S fuel : Nat) (st : MemMgr) (ret : Nat) : MemMgr × Except Fault Unit :=
  if downtoSizeT st._activeBlock.getRemainSize > S then
    match getArraySize S (downtoSizeT st._activeBlock.getRemainSize) with
    | .error e => (st, .error e)
    | .ok rn =>
      match st.getMemRecycleList fuel rn with
      | (st1, .error e) => (st1, .error e)
      | (st1, .ok (m, j)) => (st1.pushFrontAt m j ret, .ok ())
  else (st, .ok ())

/-- The statement `_activeBlock = new MemBlock<T>(_activeBlock, _blockSize)`. -/
def newBlock (nb : Nat) (st : MemMgr) : MemMgr :=
  { st with
    _activeBlock := MemBlock.new nb st._blockSize
    _nextBlocks := st._activeBlock :: st._nextBlocks }

/-- Steps 4 and 5 of `MemMgr::getMem`, for the promoted size `t`. -/
def bump (S fuel nb : Nat) (st : MemMgr) (t : Nat) : MemMgr × Except Fault Nat :=
  if (st._activeBlock.getMem t).2.1 then
    ({ st with _activeBlock := (st._activeBlock.getMem t).1 }, .ok (st._activeBlock.getMem t).2.2)
  else
    match st.recycleRemain S fuel (st._activeBlock.getMem t).2.2 with
    | (st1, .error e) => (st1, .error e)
    | (st1, .ok _) =>
      if ((st1.newBlock nb)._activeBlock.getMem t).2.1 then
        ({ st1.newBlock nb with _activeBlock := ((st1.newBlock nb)._activeBlock.getMem t).1 },
          .ok ((st1.newBlock nb)._activeBlock.getMem t).2.2)
      else (st1.newBlock nb, .error .assertFail)

/-- The method `MemMgr::getMem(t)`. -/
def getMem (S fuel nb : Nat) (st : MemMgr) (t : Nat) : MemMgr × Except Fault Nat :=
  if toSizeT t > st._blockSize then (st, .error .badAlloc)
  else
    match st.probe S fuel (toSizeT t) with
    | (st1, .error e) => (st1, .error e)
    | (st1, .ok ret) =>
      if ret ≠ 0 then (st1, .ok ret)
      else st1.bump S fuel nb (toSizeT t)

/-- The method `MemMgr::alloc(t)`. -/
def alloc (S fuel nb : Nat) (st : MemMgr) (t : Nat) : MemMgr × Except Fault Nat :=
  if t ≠ S then (st, .error .assertFail) else st.getMem S fuel nb t

/-- The method `MemMgr::allocArr(t)`. -/
def allocArr (S fuel nb : Nat) (st : MemMgr) (t : Nat) : MemMgr × Except Fault Nat :=
  st.getMem S fuel nb t

/-- The method `MemMgr::free(p)`. -/
def free (fuel : Nat) (st : MemMgr) (p : Nat) : MemMgr × Except Fault Unit :=
  match st.getMemRecycleList fuel 0 with
  | (st1, .error e) => (st1, .error e)
  | (st1, .ok (m, j)) => (st1.pushFrontAt m j p, .ok ())

/-- The method `MemMgr::freeArr(p)`. -/
def freeArr (fuel : Nat) (st : MemMgr) (p : Nat) : MemMgr × Except Fault Unit :=
  match st.getMemRecycleList fuel (st.mem p) with
  | (st1, .error e) => (st1, .error e)
  | (st1, .ok (m, j)) => (st1.pushFrontAt m j p, .ok ())

/-- The method `MemMgr::reset(b)`, where `new char[b]`, if called, returns `nb`. -/
def reset (nb : Nat) (st : MemMgr) (b : Nat) : MemMgr × Except Fault Unit :=
  if b % SIZE_T ≠ 0 then (st, .error .assertFail)
  else if b = 0 ∨ b = st._blockSize then
    ({ st with
        _activeBlock := ((st._activeBlock :: st._nextBlocks).getLast (by simp)).reset
        _nextBlocks := []
        _recycleList := fun i => (st._recycleList i).reset }, .ok ())
  else
    ({ st with
        _blockSize := b
        _activeBlock := MemBlock.new nb b
        _nextBlocks := []
        _recycleList := fun i => (st._recycleList i).reset }, .ok ())

end MemMgr

/-! ## Reachable states -/

/-- States a program can bring the manager into.  The constructor and every `reset`
with a new size are called with a block size that satisfies `good`; memory words may
be overwritten by the program between two calls. -/
inductive ReachableFrom (S : Nat) (good : Nat → Prop) : MemMgr → Prop
  | new (b nb : Nat) (mem : Nat → Nat) (st : MemMgr) :
      good b → MemMgr.new b nb mem = .ok st → ReachableFrom S good st
  | alloc (fuel nb t : Nat) (st : MemMgr) :
      ReachableFrom S good st → ReachableFrom S good (st.alloc S fuel nb t).1
  | allocArr (fuel nb t : Nat) (st : MemMgr) :
      ReachableFrom S good st → ReachableFrom S good (st.allocArr S fuel nb t).1
  | free (fuel p : Nat) (st : MemMgr) :
      ReachableFrom S good st → ReachableFrom S good (st.free fuel p).1
  | freeArr (fuel p : Nat) (st : MemMgr) :
      ReachableFrom S good st → ReachableFrom S good (st.freeArr fuel p).1
  | reset (nb b : Nat) (st : MemMgr) :
      b = 0 ∨ good b → ReachableFrom S good st → ReachableFrom S good (st.reset nb b).1
  | store (a v : Nat) (st : MemMgr) :
      ReachableFrom S good st →
      ReachableFrom S good { st with mem := Function.update st.mem a v }

/-- States reachable with any block sizes. -/
def Reachable (S : Nat) : MemMgr → Prop := ReachableFrom S (fun _ => True)

/-- No entry of the table has anything on its own list. -/
def HeadsEmpty (st : MemMgr) : Prop := ∀ i, (st._recycleList i).head._first = 0

/-- The manager after `getMemRecycleList(n)` has hung a new list on the entry. -/
def withList (st : MemMgr) (n : Nat) : MemMgr :=
  { st with
    _recycleList := Function.update st._recycleList (slotOf n)
      { head := (st._recycleList (slotOf n)).head, rest := [{ _arrSize := n, _first := 0 }] } }

/-! ## Test scenarios -/

/-- The manager of the scenarios: block size 64, first block at address 4096, every
memory word zero. -/
def pool64 : MemMgr := MemMgr.init 64 4096 (fun _ => 0)

/-- The call `alloc(S)` made `k` times in a row: the manager afterwards and what the
calls returned, oldest first. -/
def allocMany (S fuel nb : Nat) : Nat → MemMgr → MemMgr × List (Except Fault Nat)
  | 0, st => (st, [])
  | k + 1, st =>
    ((allocMany S fuel nb k (st.alloc S fuel nb S).1).1,
      (st.alloc S fuel nb S).2 :: (allocMany S fuel nb k (st.alloc S fuel nb S).1).2)

/-- The manager of the scenarios after `allocArr(24)` has returned 4096 and the program
has stored the element count 2 in the word at that address. -/
def tagged64 : MemMgr :=
  { (pool64.allocArr 8 4 8192 24).1 with
    mem := Function.update (pool64.allocArr 8 4 8192 24).1.mem 4096 2 }

/-- The manager of the scenarios with `S = 4` after `alloc(4)` has returned 4096 and
`free(4096)` has been called. -/
def freed4 : MemMgr := ((pool64.alloc 4 4 8192 4).1.free 4 4096).1

/-! ## Lists, blocks and traces of calls -/

/-- The nodes of a recycle list: following the links stored in memory from the pointer
`p` visits the addresses `xs` in that order and then the null pointer. -/
def IsList (mem : Nat → Nat) : Nat → List Nat → Prop
  | p, [] => p = 0
  | p, x :: xs => p ≠ 0 ∧ p = x ∧ IsList mem (mem x) xs

/-- The blocks of the manager, newest first. -/
def MemMgr.blocks (st : MemMgr) : List MemBlock := st._activeBlock :: st._nextBlocks

/-- Every block has its cursor between its begin and its end, at a word multiple from
its begin, and is as long as the block size. -/
def BlocksOk (st : MemMgr) : Prop :=
  ∀ blk ∈ st.blocks, blk._begin ≤ blk._ptr ∧ blk._ptr ≤ blk._end ∧
    blk._end = blk._begin + st._blockSize ∧ (blk._ptr - blk._begin) % SIZE_T = 0

/-- A piece of memory: its first address and its size in bytes. -/
structure Span where
  addr : Nat
  size : Nat
deriving DecidableEq, Repr

/-- Two pieces of memory do not overlap. -/
def Span.Disjoint (x y : Span) : Prop :=
  x.addr + x.size ≤ y.addr ∨ y.addr + y.size ≤ x.addr

/-- Two blocks do not overlap. -/
def MemBlock.Apart (a b : MemBlock) : Prop := a._end ≤ b._begin ∨ b._end ≤ a._begin

/-- The address `nb` is one that `new char[_blockSize]` can return: the new block
overlaps no block of the manager. -/
def Fresh (st : MemMgr) (nb : Nat) : Prop :=
  ∀ blk ∈ st.blocks, nb + st._blockSize ≤ blk._begin ∨ blk._end ≤ nb

/-- The piece of memory lies in the allocated part of a block. -/
def Used (st : MemMgr) (y : Span) : Prop :=
  ∃ blk ∈ st.blocks, blk._begin ≤ y.addr ∧ y.addr + y.size ≤ blk._ptr

/-- The piece of memory lies in the unallocated part of a block that is no longer the
active one. -/
def Spare (st : MemMgr) (z : Span) : Prop :=
  ∃ blk ∈ st._nextBlocks, blk._ptr ≤ z.addr ∧ z.addr + z.size ≤ blk._end

namespace MemMgr

/-- What a call of `getMem(t)` hands out: the returned address with the promoted size,
and the active block behind the call, which is the block the memory comes from. -/
def served (S fuel nb : Nat) (st : MemMgr) (t : Nat) : List (Span × MemBlock) :=
  match (st.getMem S fuel nb t).2 with
  | .ok q => [({ addr := q, size := toSizeT t }, (st.getMem S fuel nb t).1._activeBlock)]
  | .error _ => []

/-- What a call of `getMem(t)` pushes on a recycle list as the rest of the block it
retires: the old cursor with `remain_size`, on the path through `// recyclic ret`
with `remain_size > S`. -/
def salvaged (S fuel : Nat) (st : MemMgr) (t : Nat) : List Span :=
  if toSizeT t ≤ st._blockSize then
    match (st.probe S fuel (toSizeT t)).2 with
    | .ok 0 =>
      if st._activeBlock.getRemainSize < toSizeT t ∧
          S < downtoSizeT st._activeBlock.getRemainSize then
        [{ addr := st._activeBlock._ptr, size := downtoSizeT st._activeBlock.getRemainSize }]
      else []
    | _ => []
  else []

end MemMgr

/-- The properties of the manager that the disjointness of its allocations rests on. -/
def Sound (st : MemMgr) : Prop :=
  HeadsEmpty st ∧ BlocksOk st ∧ st.blocks.Pairwise MemBlock.Apart

/-- A call made on the manager between two resets; a call that may create a block comes
with the address `nb` that `new char[_blockSize]` would return. -/
inductive Call where
  | alloc (nb : Nat)
  | allocArr (nb t : Nat)
  | free (p : Nat)
  | freeArr (p : Nat)
  | store (a v : Nat)
deriving DecidableEq, Repr

namespace Call

/-- The manager after the call; `alloc` is called with `S`, the only size it accepts. -/
def run (S fuel : Nat) (st : MemMgr) : Call → MemMgr
  | alloc nb => (st.alloc S fuel nb S).1
  | allocArr nb t => (st.allocArr S fuel nb t).1
  | free p => (st.free fuel p).1
  | freeArr p => (st.freeArr fuel p).1
  | store a v => { st with mem := Function.update st.mem a v }

/-- What the call hands out. -/
def served (S fuel : Nat) (st : MemMgr) : Call → List (Span × MemBlock)
  | alloc nb => st.served S fuel nb S
  | allocArr nb t => st.served S fuel nb t
  | _ => []

/-- What the call pushes on a recycle list as the rest of a retired block. -/
def salvaged (S fuel : Nat) (st : MemMgr) : Call → List Span
  | alloc _ => st.salvaged S fuel S
  | allocArr _ t => st.salvaged S fuel t
  | _ => []

/-- The address for a new block that comes with the call is fresh. -/
def IsFresh (st : MemMgr) : Call → Prop
  | alloc nb => Fresh st nb
  | allocArr nb _ => Fresh st nb
  | _ => True

end Call

/-- Everything handed out by a sequence of calls, in the order of the calls. -/
def servedAll (S fuel : Nat) : List Call → MemMgr → List (Span × MemBlock)
  | [], _ => []
  | c :: cs, st => c.served S fuel st ++ servedAll S fuel cs (c.run S fuel st)

/-- Everything salvaged from retired blocks by a sequence of calls. -/
def salvagedAll (S fuel : Nat) : List Call → MemMgr → List Span
  | [], _ => []
  | c :: cs, st => c.salvaged S fuel st ++ salvagedAll S fuel cs (c.run S fuel st)

/-- Every call of the sequence comes with a fresh address. -/
def FreshAll (S fuel : Nat) : List Call → MemMgr → Prop
  | [], _ => True
  | c :: cs, st => c.IsFresh st ∧ FreshAll S fuel cs (c.run S fuel st)

/-- The calls of the scenario: five scalars, an array of 32 bytes that opens the block
at 8192, an array of 24 bytes. -/
def scenarioCalls : List Call :=
  [.alloc 8192, .alloc 8192, .alloc 8192, .alloc 8192, .alloc 8192, .allocArr 8192 32,
    .allocArr 12288 24]

/-! ## The table entries keep an empty list of their own -/

/-- An empty list has no elements, whatever the fuel. -/
theorem numElmFrom_null (mem : Nat → Nat) (fuel : Nat) :
    MemRecycleList.numElmFrom mem fuel 0 = some 0 := by
  cases fuel <;> simp [MemRecycleList.numElmFrom]

/-- With an empty list on the table entry the loop of `getMemRecycleList` does not run:
the call hangs a new list for `n` on the entry, in place of whatever was chained there,
and returns it. -/
theorem getMemRecycleList_headsEmpty (fuel : Nat) (st : MemMgr) (n : Nat)
    (h : HeadsEmpty st) :
    st.getMemRecycleList fuel n = (withList st n, .ok (slotOf n, 1)) := by
  simp [MemMgr.getMemRecycleList, MemRecycleList.numElm, h (slotOf n), numElmFrom_null,
    RecycleChain.search, withList]

theorem popFrontAt_withList (st : MemMgr) (n : Nat) :
    (withList st n).popFrontAt (slotOf n) 1 = (withList st n, 0) := by
  simp [MemMgr.popFrontAt, withList, RecycleChain.get, RecycleChain.set,
    MemRecycleList.popFront]

theorem headsEmpty_withList (st : MemMgr) (n : Nat) (h : HeadsEmpty st) :
    HeadsEmpty (withList st n) := by
  intro i
  by_cases hi : i = slotOf n
  · subst hi; simpa [withList] using h (slotOf n)
  · simpa [withList, Function.update_noteq hi] using h i

theorem headsEmpty_pushFrontAt (st : MemMgr) (m : Fin R_SIZE) (j p : Nat)
    (h : HeadsEmpty st) : HeadsEmpty (st.pushFrontAt m (j + 1) p) := by
  intro i
  by_cases hi : i = m
  · subst hi; simpa [MemMgr.pushFrontAt, RecycleChain.set] using h i
  · simpa [MemMgr.pushFrontAt, Function.update_noteq hi] using h i

theorem probe_headsEmpty (S fuel : Nat) (st : MemMgr) (t n : Nat) (h : HeadsEmpty st)
    (hn : getArraySize S t = .ok n) :
    st.probe S fuel t = (withList st n, .ok 0) := by
  simp [MemMgr.probe, hn, getMemRecycleList_headsEmpty fuel st n h, popFrontAt_withList]

theorem probe_fault (S fuel : Nat) (st : MemMgr) (t : Nat) (e : Fault)
    (hn : getArraySize S t = .error e) :
    st.probe S fuel t = (st, .error e) := by
  simp [MemMgr.probe, hn]

theorem getArraySize_ok (S t : Nat) (h8 : t % SIZE_T = 0) (hS : S ≤ t) :
    getArraySize S t = .ok ((t - SIZE_T) / S) := by
  simp [getArraySize, h8, Nat.not_lt.mpr hS]

theorem downtoSizeT_mod (t : Nat) : downtoSizeT t % SIZE_T = 0 := by
  show (t - t % 8) % 8 = 0
  omega

/-- What `recycleRemain` does when the table entries have empty lists of their own: the
address is pushed exactly when the span left, rounded down, is greater than `S`. -/
theorem recycleRemain_headsEmpty (S fuel : Nat) (st : MemMgr) (ret : Nat)
    (h : HeadsEmpty st) :
    st.recycleRemain S fuel ret =
      if downtoSizeT st._activeBlock.getRemainSize > S then
        ((withList st ((downtoSizeT st._activeBlock.getRemainSize - SIZE_T) / S)).pushFrontAt
          (slotOf ((downtoSizeT st._activeBlock.getRemainSize - SIZE_T) / S)) 1 ret, .ok ())
      else (st, .ok ()) := by
  unfold MemMgr.recycleRemain
  split
  · rename_i hgt
    rw [getArraySize_ok S _ (downtoSizeT_mod _) (Nat.le_of_lt hgt)]
    simp [getMemRecycleList_headsEmpty fuel st _ h]
  · rfl

theorem toSizeT_mod (t : Nat) : toSizeT t % SIZE_T = 0 := by
  unfold toSizeT
  split
  · assumption
  · show (t - t % 8 + 8) % 18446744073709551616 % 8 = 0
    omega

theorem toSizeT_of_mod (t : Nat) (h : t % SIZE_T = 0) : toSizeT t = t := by
  simp [toSizeT, h]

theorem toSizeT_toSizeT (t : Nat) : toSizeT (toSizeT t) = toSizeT t :=
  toSizeT_of_mod _ (toSizeT_mod t)

theorem headsEmpty_recycleRemain (S fuel : Nat) (st : MemMgr) (ret : Nat)
    (h : HeadsEmpty st) : HeadsEmpty (st.recycleRemain S fuel ret).1 := by
  rw [recycleRemain_headsEmpty S fuel st ret h]
  split
  · exact headsEmpty_pushFrontAt _ _ 0 _ (headsEmpty_withList st _ h)
  · exact h

theorem recycleRemain_ok (S fuel : Nat) (st : MemMgr) (ret : Nat)
    (h : HeadsEmpty st) : (st.recycleRemain S fuel ret).2 = .ok () := by
  rw [recycleRemain_headsEmpty S fuel st ret h]
  split <;> rfl

theorem headsEmpty_bump (S fuel nb : Nat) (st : MemMgr) (t : Nat)
    (h : HeadsEmpty st) : HeadsEmpty (st.bump S fuel nb t).1 := by
  have h1 := headsEmpty_recycleRemain S fuel st (st._activeBlock.getMem t).2.2 h
  have h2 := recycleRemain_ok S fuel st (st._activeBlock.getMem t).2.2 h
  unfold MemMgr.bump
  split
  · exact h
  · generalize st.recycleRemain S fuel (st._activeBlock.getMem t).2.2 = r at h1 h2
    obtain ⟨st1, res⟩ := r
    simp only at h1 h2
    subst h2
    simp only
    split
    · exact h1
    · exact h1

theorem headsEmpty_getMem (S fuel nb : Nat) (st : MemMgr) (t : Nat)
    (h : HeadsEmpty st) : HeadsEmpty (st.getMem S fuel nb t).1 := by
  unfold MemMgr.getMem
  split
  · exact h
  · cases hn : getArraySize S (toSizeT t) with
    | error e => rw [probe_fault S fuel st _ e hn]; exact h
    | ok n =>
      rw [probe_headsEmpty S fuel st _ n h hn]
      simp only [ne_eq, not_true_eq_false, if_false]
      exact headsEmpty_bump S fuel nb _ _ (headsEmpty_withList st n h)

theorem headsEmpty_free (fuel : Nat) (st : MemMgr) (p : Nat) (h : HeadsEmpty st) :
    HeadsEmpty (st.free fuel p).1 := by
  simp only [MemMgr.free, getMemRecycleList_headsEmpty fuel st _ h]
  exact headsEmpty_pushFrontAt _ _ 0 _ (headsEmpty_withList st _ h)

theorem headsEmpty_freeArr (fuel : Nat) (st : MemMgr) (p : Nat) (h : HeadsEmpty st) :
    HeadsEmpty (st.freeArr fuel p).1 := by
  simp only [MemMgr.freeArr, getMemRecycleList_headsEmpty fuel st _ h]
  exact headsEmpty_pushFrontAt _ _ 0 _ (headsEmpty_withList st _ h)

theorem headsEmpty_reset (nb : Nat) (st : MemMgr) (b : Nat) (h : HeadsEmpty st) :
    HeadsEmpty (st.reset nb b).1 := by
  unfold MemMgr.reset
  split
  · exact h
  · split <;> intro i <;> rfl

theorem headsEmpty_new (b nb : Nat) (mem : Nat → Nat) (st : MemMgr)
    (h : MemMgr.new b nb mem = .ok st) : HeadsEmpty st := by
  unfold MemMgr.new at h
  split at h
  · cases h
  · injection h with h; subst h; intro i; rfl

/-- In every reachable state the list of every table entry itself is empty. -/
theorem ReachableFrom.headsEmpty {S : Nat} {good : Nat → Prop} {st : MemMgr}
    (h : ReachableFrom S good st) : HeadsEmpty st := by
  induction h with
  | new b nb mem st _ hnew => exact headsEmpty_new b nb mem st hnew
  | alloc fuel nb t st _ ih =>
    unfold MemMgr.alloc
    split
    · exact ih
    · exact headsEmpty_getMem S fuel nb st t ih
  | allocArr fuel nb t st _ ih => exact headsEmpty_getMem S fuel nb st t ih
  | free fuel p st _ ih => exact headsEmpty_free fuel st p ih
  | freeArr fuel p st _ ih => exact headsEmpty_freeArr fuel st p ih
  | reset nb b st _ _ ih => exact headsEmpty_reset nb st b ih
  | store a v st _ ih => exact ih

theorem recycleRemain_frame (S fuel : Nat) (st : MemMgr) (ret : Nat) (h : HeadsEmpty st) :
    (st.recycleRemain S fuel ret).1._blockSize = st._blockSize ∧
    (st.recycleRemain S fuel ret).1._activeBlock = st._activeBlock ∧
    (st.recycleRemain S fuel ret).1._nextBlocks = st._nextBlocks := by
  rw [recycleRemain_headsEmpty S fuel st ret h]
  split <;> simp [MemMgr.pushFrontAt, withList]

theorem blockGetMem_of_mod (blk : MemBlock) (t : Nat) (h8 : t % SIZE_T = 0) :
    blk.getMem t =
      if t ≤ blk.getRemainSize then ({ blk with _ptr := blk._ptr + t }, true, blk._ptr)
      else (blk, false, blk._ptr) := by
  unfold MemBlock.getMem
  rw [toSizeT_of_mod t h8]
  by_cases hle : t ≤ blk.getRemainSize
  · simp [hle]
  · simp [hle, Nat.lt_of_not_le hle]

/-- Steps 4 and 5 of `getMem` for a promoted size within the block size: the address is
the cursor of the active block, or the begin of a new block. -/
theorem bump_headsEmpty (S fuel nb : Nat) (st : MemMgr) (t : Nat) (h : HeadsEmpty st)
    (h8 : t % SIZE_T = 0) (hcap : t ≤ st._blockSize) :
    st.bump S fuel nb t =
      if t ≤ st._activeBlock.getRemainSize then
        ({ st with _activeBlock := { st._activeBlock with _ptr := st._activeBlock._ptr + t } },
          .ok st._activeBlock._ptr)
      else
        ({ (st.recycleRemain S fuel st._activeBlock._ptr).1.newBlock nb with
            _activeBlock := { _begin := nb, _ptr := nb + t, _end := nb + st._blockSize } },
          .ok nb) := by
  have hf := recycleRemain_frame S fuel st st._activeBlock._ptr h
  have hok := recycleRemain_ok S fuel st st._activeBlock._ptr h
  unfold MemMgr.bump
  rw [blockGetMem_of_mod _ t h8]
  by_cases hle : t ≤ st._activeBlock.getRemainSize
  · simp [hle]
  · simp only [hle, if_false]
    generalize st.recycleRemain S fuel st._activeBlock._ptr = r at hf hok
    obtain ⟨st1, res⟩ := r
    simp only at hf hok
    subst hok
    obtain ⟨hb, _, _⟩ := hf
    simp [MemMgr.newBlock, blockGetMem_of_mod _ t h8, MemBlock.new, hb,
      MemBlock.getRemainSize, hcap]

/-- The result of `getMem` for a request that passes the size check and the assertions of
`getArraySize`, when the table entries have empty lists of their own. -/
theorem getMem_headsEmpty (S fuel nb : Nat) (st : MemMgr) (t n : Nat) (h : HeadsEmpty st)
    (hcap : toSizeT t ≤ st._blockSize) (hn : getArraySize S (toSizeT t) = .ok n) :
    st.getMem S fuel nb t =
      if toSizeT t ≤ st._activeBlock.getRemainSize then
        ({ withList st n with
            _activeBlock :=
              { st._activeBlock with _ptr := st._activeBlock._ptr + toSizeT t } },
          .ok st._activeBlock._ptr)
      else
        ({ ((withList st n).recycleRemain S fuel st._activeBlock._ptr).1.newBlock nb with
            _activeBlock :=
              { _begin := nb, _ptr := nb + toSizeT t, _end := nb + st._blockSize } },
          .ok nb) := by
  unfold MemMgr.getMem
  rw [if_neg (Nat.not_lt.mpr hcap), probe_headsEmpty S fuel st _ n h hn]
  simp only [ne_eq, not_true_eq_false, if_false]
  rw [bump_headsEmpty S fuel nb (withList st n) _ (headsEmpty_withList st n h)
    (toSizeT_mod t) (by simpa [withList] using hcap)]
  rfl

theorem free_headsEmpty (fuel : Nat) (st : MemMgr) (p : Nat) (h : HeadsEmpty st) :
    st.free fuel p = ((withList st 0).pushFrontAt (slotOf 0) 1 p, .ok ()) := by
  simp only [MemMgr.free, getMemRecycleList_headsEmpty fuel st _ h]

theorem freeArr_headsEmpty (fuel : Nat) (st : MemMgr) (p : Nat) (h : HeadsEmpty st) :
    st.freeArr fuel p =
      ((withList st (st.mem p)).pushFrontAt (slotOf (st.mem p)) 1 p, .ok ()) := by
  simp only [MemMgr.freeArr, getMemRecycleList_headsEmpty fuel st _ h]

theorem getArraySize_ok_inv (S t n : Nat) (h : getArraySize S t = .ok n) :
    t % SIZE_T = 0 ∧ S ≤ t ∧ n = (t - SIZE_T) / S := by
  unfold getArraySize at h
  split at h
  · cases h
  · split at h
    · cases h
    · injection h with h
      refine ⟨by omega, by omega, h.symm⟩


/-! ## Results of `getMem` -/

theorem getArraySize_fault (S t : Nat) (e : Fault) (h : getArraySize S t = .error e) :
    e = .assertFail := by
  unfold getArraySize at h
  split at h
  · injection h with h; exact h.symm
  · split at h
    · injection h with h; exact h.symm
    · cases h

theorem getMem_badAlloc (S fuel nb : Nat) (st : MemMgr) (t : Nat)
    (h : st._blockSize < toSizeT t) : st.getMem S fuel nb t = (st, .error .badAlloc) := by
  unfold MemMgr.getMem
  rw [if_pos h]

theorem getMem_fault (S fuel nb : Nat) (st : MemMgr) (t : Nat) (e : Fault)
    (hcap : toSizeT t ≤ st._blockSize) (hn : getArraySize S (toSizeT t) = .error e) :
    st.getMem S fuel nb t = (st, .error .assertFail) := by
  unfold MemMgr.getMem
  rw [if_neg (Nat.not_lt.mpr hcap), probe_fault S fuel st _ e hn,
    getArraySize_fault S _ e hn]

theorem getMem_blockSize (S fuel nb : Nat) (st : MemMgr) (t : Nat) (h : HeadsEmpty st) :
    (st.getMem S fuel nb t).1._blockSize = st._blockSize := by
  by_cases hcap : toSizeT t ≤ st._blockSize
  · cases hn : getArraySize S (toSizeT t) with
    | error e => rw [getMem_fault S fuel nb st t e hcap hn]
    | ok n =>
      rw [getMem_headsEmpty S fuel nb st t n h hcap hn]
      split
      · rfl
      · exact (recycleRemain_frame S fuel _ _ (headsEmpty_withList st n h)).1
  · rw [getMem_badAlloc S fuel nb st t (Nat.lt_of_not_le hcap)]

theorem getMem_nextBlocks (S fuel nb : Nat) (st : MemMgr) (t n : Nat) (h : HeadsEmpty st)
    (hcap : toSizeT t ≤ st._blockSize) (hn : getArraySize S (toSizeT t) = .ok n) :
    (st.getMem S fuel nb t).1._nextBlocks =
      if toSizeT t ≤ st._activeBlock.getRemainSize then st._nextBlocks
      else st._activeBlock :: st._nextBlocks := by
  rw [getMem_headsEmpty S fuel nb st t n h hcap hn]
  have hf := recycleRemain_frame S fuel (withList st n) st._activeBlock._ptr
    (headsEmpty_withList st n h)
  split
  · rfl
  · show (_ :: _) = _
    rw [hf.2.1, hf.2.2]
    rfl

theorem getMem_ok (S fuel nb : Nat) (st : MemMgr) (t n : Nat) (h : HeadsEmpty st)
    (hcap : toSizeT t ≤ st._blockSize) (hn : getArraySize S (toSizeT t) = .ok n) :
    ∃ q, (st.getMem S fuel nb t).2 = .ok q := by
  rw [getMem_headsEmpty S fuel nb st t n h hcap hn]
  split
  · exact ⟨_, rfl⟩
  · exact ⟨_, rfl⟩

/-- The number of blocks after a call of `getMem` that passes the size check, in a
manager whose table entries have empty lists of their own. -/
theorem getMem_count (S fuel nb : Nat) (st : MemMgr) (t : Nat) (h : HeadsEmpty st)
    (hcap : toSizeT t ≤ st._blockSize) :
    ((st.getMem S fuel nb t).1.getNumBlocks = st.getNumBlocks ∨
      (st.getMem S fuel nb t).1.getNumBlocks = st.getNumBlocks + 1) ∧
    ((st.getMem S fuel nb t).1.getNumBlocks = st.getNumBlocks + 1 ↔
      (st.probe S fuel (toSizeT t)).2 = .ok 0 ∧
        st._activeBlock.getRemainSize < toSizeT t) := by
  cases hn : getArraySize S (toSizeT t) with
  | error e =>
    rw [getMem_fault S fuel nb st t e hcap hn, probe_fault S fuel st _ e hn]
    refine ⟨Or.inl rfl, ?_⟩
    constructor
    · intro hc; simp at hc
    · rintro ⟨hc, _⟩; cases hc
  | ok n =>
    have hnext := getMem_nextBlocks S fuel nb st t n h hcap hn
    have hprobe : (st.probe S fuel (toSizeT t)).2 = .ok 0 := by
      rw [probe_headsEmpty S fuel st _ _ h hn]
    unfold MemMgr.getNumBlocks
    rw [hnext]
    by_cases hfit : toSizeT t ≤ st._activeBlock.getRemainSize
    · rw [if_pos hfit]
      refine ⟨Or.inl rfl, ?_⟩
      constructor
      · intro hc; omega
      · rintro ⟨_, hlt⟩; omega
    · rw [if_neg hfit]
      refine ⟨Or.inr (by simp; omega), ?_⟩
      constructor
      · intro _; exact ⟨hprobe, Nat.lt_of_not_le hfit⟩
      · intro _; simp; omega

/-- The block size of a reachable manager is one of the sizes it was given. -/
theorem ReachableFrom.blockSize_good {S : Nat} {good : Nat → Prop} {st : MemMgr}
    (h : ReachableFrom S good st) : good st._blockSize := by
  induction h with
  | new b nb mem st hb hnew =>
    unfold MemMgr.new at hnew
    split at hnew
    · cases hnew
    · injection hnew with hnew; subst hnew; exact hb
  | alloc fuel nb t st hr ih =>
    unfold MemMgr.alloc
    split
    · exact ih
    · rw [getMem_blockSize S fuel nb st t hr.headsEmpty]; exact ih
  | allocArr fuel nb t st hr ih =>
    unfold MemMgr.allocArr
    rw [getMem_blockSize S fuel nb st t hr.headsEmpty]; exact ih
  | free fuel p st hr ih => rw [free_headsEmpty fuel st p hr.headsEmpty]; exact ih
  | freeArr fuel p st hr ih => rw [freeArr_headsEmpty fuel st p hr.headsEmpty]; exact ih
  | reset nb b st hb _ ih =>
    unfold MemMgr.reset
    split
    · exact ih
    · split
      · exact ih
      · rename_i hne
        rcases hb with hb | hb
        · exact absurd (Or.inl hb) hne
        · exact hb
  | store a v st _ ih => exact ih

/-- The manager of the scenarios is reachable. -/
theorem reachable_pool64 (S : Nat) : Reachable S pool64 :=
  ReachableFrom.new 64 4096 (fun _ => 0) pool64 trivial rfl

/-- The promotion `toSizeT` for a value it does not wrap around. -/
theorem toSizeT_eq (x : Nat) (h : x + SIZE_T ≤ SIZE_MOD) :
    toSizeT x = x + (SIZE_T - x % SIZE_T) % SIZE_T := by
  have h2 : x + 8 ≤ 18446744073709551616 := h
  show (if x % 8 = 0 then x else (x - x % 8 + 8) % 18446744073709551616) =
    x + (8 - x % 8) % 8
  split <;> omega

/-- A request above the block size that `toSizeT` does not wrap around is refused with
`bad_alloc`, and the manager is left as it was. -/
theorem getMem_rejects_oversize (S fuel nb : Nat) (st : MemMgr) (t : Nat)
    (hwrap : t + SIZE_T ≤ SIZE_MOD) (hbig : st._blockSize < t) :
    st.getMem S fuel nb t = (st, .error .badAlloc) := by
  apply getMem_badAlloc
  rw [toSizeT_eq t hwrap]
  omega

/-! ## The claims -/

/-- Claim C1 fails on the code.  Block size 64, `S = 8`: nine scalars are allocated,
the ninth opening a second block at 8192; the third address, 4112, is freed; the tenth
`alloc` does not return 4112 but 8200, bump-allocated from the second block. -/
theorem tenth_scalar_is_bumped :
    MemMgr.new 64 4096 (fun _ => 0) = .ok pool64 ∧
    (allocMany 8 4 8192 9 pool64).2 =
      [.ok 4096, .ok 4104, .ok 4112, .ok 4120, .ok 4128, .ok 4136, .ok 4144, .ok 4152,
        .ok 8192] ∧
    (allocMany 8 4 8192 9 pool64).1.getNumBlocks = 2 ∧
    ((allocMany 8 4 8192 9 pool64).1.free 4 4112).2 = .ok () ∧
    (((allocMany 8 4 8192 9 pool64).1.free 4 4112).1.alloc 8 4 12288 8).2 = .ok 8200 :=
  ⟨rfl, rfl, rfl, rfl, rfl⟩

/-- Claim C2 fails on the code.  Block size 64, `S = 8`: the request of `2 ^ 64 - 1`
bytes is above the block size, but `toSizeT` wraps it around to 0, the size check
passes, and the call ends on the assertion `t >= S` of `getArraySize`, not with
`bad_alloc`. -/
theorem wrapped_request_is_not_badAlloc :
    pool64._blockSize < 2 ^ 64 - 1 ∧ 2 ^ 64 - 1 < SIZE_MOD ∧
    toSizeT (2 ^ 64 - 1) = 0 ∧
    (pool64.allocArr 8 4 8192 (2 ^ 64 - 1)).2 = .error .assertFail :=
  ⟨by decide, by decide, by decide, rfl⟩

/-- Claim C3.  In a reachable manager, `freeArr(p)` for an address `p` outside the
unallocated span of the active block, followed by `allocArr(t)` for a request within
the block size whose element count `n` differs from the tag stored at `p`, returns an
address other than `p`.  The address `nb` that the system hands out, should a block be
created, is not `p`, which is memory in use.  The proof does not use that the counts
differ. -/
theorem freeArr_then_allocArr_other_count (S fuel fuel2 nb : Nat) (st : MemMgr)
    (p t n : Nat) (hS : 1 ≤ S) (hr : Reachable S st)
    (hp : ¬ (st._activeBlock._ptr ≤ p ∧ p < st._activeBlock._end))
    (hnb : nb ≠ p)
    (hcap : toSizeT t ≤ st._blockSize)
    (hn : getArraySize S (toSizeT t) = .ok n)
    (_hne : n ≠ st.mem p) :
    (st.freeArr fuel p).2 = .ok () ∧
    ∃ q, ((st.freeArr fuel p).1.allocArr S fuel2 nb t).2 = .ok q ∧ q ≠ p := by
  have h := ReachableFrom.headsEmpty hr
  have h1 : HeadsEmpty (st.freeArr fuel p).1 := headsEmpty_freeArr fuel st p h
  obtain ⟨_, hSt, _⟩ := getArraySize_ok_inv S _ n hn
  have hfr := freeArr_headsEmpty fuel st p h
  have hb : (st.freeArr fuel p).1._blockSize = st._blockSize := by rw [hfr]; rfl
  have ha : (st.freeArr fuel p).1._activeBlock = st._activeBlock := by rw [hfr]; rfl
  refine ⟨by rw [hfr], ?_⟩
  unfold MemMgr.allocArr
  rw [getMem_headsEmpty S fuel2 nb _ t n h1 (by rw [hb]; exact hcap) hn, ha]
  split
  · rename_i hfit
    refine ⟨_, rfl, ?_⟩
    intro hq
    apply hp
    unfold MemBlock.getRemainSize at hfit
    omega
  · exact ⟨_, rfl, hnb⟩

/-- The theorem of claim C3 at the scenario manager: the array at 4096 carries the tag 2
and is freed, the request of 32 bytes has the element count 3. -/
theorem freeArr_then_allocArr_other_count_witness :
    tagged64.mem 4096 = 2 ∧ getArraySize 8 (toSizeT 32) = .ok 3 ∧
    (tagged64.freeArr 4 4096).2 = .ok () ∧
    ∃ q, ((tagged64.freeArr 4 4096).1.allocArr 8 4 8192 32).2 = .ok q ∧ q ≠ 4096 :=
  ⟨by decide, rfl,
    freeArr_then_allocArr_other_count 8 4 4 8192 tagged64 4096 32 3 (by decide)
      (.store 4096 2 _ (.allocArr 4 8192 24 _ (reachable_pool64 8)))
      (by decide) (by decide) (by decide) rfl (by decide)⟩

/-- Claim C4 fails on the code at its boundary.  Block size 64, `S = 8`: after seven
scalars the active block has 8 bytes left, a span of exactly one element, which
`getArraySize` assigns to the element count 0.  `allocArr(24)` opens a new block and
returns its begin, and the old cursor 4152 is on no recycle list: every list of every
table entry is empty afterwards. -/
theorem span_of_one_element_is_dropped :
    (allocMany 8 4 8192 7 pool64).1._activeBlock =
      { _begin := 4096, _ptr := 4152, _end := 4160 } ∧
    downtoSizeT (allocMany 8 4 8192 7 pool64).1._activeBlock.getRemainSize = 8 ∧
    getArraySize 8 8 = .ok 0 ∧
    ((allocMany 8 4 8192 7 pool64).1.allocArr 8 4 8192 24).2 = .ok 8192 ∧
    ((allocMany 8 4 8192 7 pool64).1.allocArr 8 4 8192 24).1.getNumBlocks = 2 ∧
    (∀ i,
      (((allocMany 8 4 8192 7 pool64).1.allocArr 8 4 8192 24).1._recycleList i).head._first
        = 0 ∧
      ∀ l ∈ (((allocMany 8 4 8192 7 pool64).1.allocArr 8 4 8192 24).1._recycleList i).rest,
        l._first = 0) :=
  ⟨rfl, rfl, rfl, rfl, rfl, by decide!⟩

/-- Claim C5 fails on the code.  Block size 64, `S = 8`: after five scalars 24 bytes are
left; `allocArr(32)` opens a new block at 8192 and pushes the old cursor 4136 on the
list for the element count 2.  The following `allocArr(24)`, whose element count is 2
as well, does not return 4136 but 8224, bump-allocated from the new block. -/
theorem salvaged_span_is_not_served :
    (allocMany 8 4 8192 5 pool64).1._activeBlock =
      { _begin := 4096, _ptr := 4136, _end := 4160 } ∧
    ((allocMany 8 4 8192 5 pool64).1.allocArr 8 4 8192 32).2 = .ok 8192 ∧
    ((allocMany 8 4 8192 5 pool64).1.allocArr 8 4 8192 32).1.getNumBlocks = 2 ∧
    getArraySize 8 (downtoSizeT 24) = .ok 2 ∧
    ((allocMany 8 4 8192 5 pool64).1.allocArr 8 4 8192 32).1._recycleList 2 =
      { head := { _arrSize := 2, _first := 0 }
        rest := [{ _arrSize := 2, _first := 4136 }] } ∧
    getArraySize 8 (toSizeT 24) = .ok 2 ∧
    (((allocMany 8 4 8192 5 pool64).1.allocArr 8 4 8192 32).1.allocArr 8 4 12288 24).2 =
      .ok 8224 :=
  ⟨rfl, rfl, rfl, rfl, rfl, rfl, rfl⟩

/-- Claim C6.  After `reset(b)` with `b` a multiple of the word size there is one block
and every table entry has an empty list and no chained lists.  If `b` is 0 or the
current block size, the block is the oldest block of the chain with its cursor at its
begin, and the block size is unchanged; otherwise the block size is `b` and the block
is a new block of `b` bytes with its cursor at its begin. -/
theorem reset_leaves_one_clean_block (nb : Nat) (st : MemMgr) (b : Nat)
    (hb : b % SIZE_T = 0) :
    (st.reset nb b).2 = .ok () ∧
    (st.reset nb b).1._nextBlocks = [] ∧
    (st.reset nb b).1.getNumBlocks = 1 ∧
    (∀ i, ((st.reset nb b).1._recycleList i).head._first = 0 ∧
      ((st.reset nb b).1._recycleList i).rest = []) ∧
    (b = 0 ∨ b = st._blockSize →
      (st.reset nb b).1._blockSize = st._blockSize ∧
      (st.reset nb b).1._activeBlock =
        { _begin := ((st._activeBlock :: st._nextBlocks).getLast (List.cons_ne_nil _ _))._begin
          _ptr := ((st._activeBlock :: st._nextBlocks).getLast (List.cons_ne_nil _ _))._begin
          _end := ((st._activeBlock :: st._nextBlocks).getLast (List.cons_ne_nil _ _))._end }) ∧
    (¬ (b = 0 ∨ b = st._blockSize) →
      (st.reset nb b).1._blockSize = b ∧
      (st.reset nb b).1._activeBlock = { _begin := nb, _ptr := nb, _end := nb + b }) := by
  unfold MemMgr.reset
  rw [if_neg (by simpa using hb)]
  by_cases hc : b = 0 ∨ b = st._blockSize
  · rw [if_pos hc]
    exact ⟨rfl, rfl, rfl, fun i => ⟨rfl, rfl⟩, fun _ => ⟨rfl, rfl⟩, fun h => absurd hc h⟩
  · rw [if_neg hc]
    exact ⟨rfl, rfl, rfl, fun i => ⟨rfl, rfl⟩, fun h => absurd h hc, fun _ => ⟨rfl, rfl⟩⟩

/-- The theorem of claim C6 at the scenario manager with two blocks and `reset(0)`. -/
theorem reset_leaves_one_clean_block_witness :
    (0 : Nat) % SIZE_T = 0 ∧
    (allocMany 8 4 8192 9 pool64).1.getNumBlocks = 2 ∧
    ((allocMany 8 4 8192 9 pool64).1.reset 12288 0).2 = .ok () ∧
    ((allocMany 8 4 8192 9 pool64).1.reset 12288 0).1.getNumBlocks = 1 ∧
    ((allocMany 8 4 8192 9 pool64).1.reset 12288 0).1._activeBlock =
      { _begin := 4096, _ptr := 4096, _end := 4160 } :=
  have h := reset_leaves_one_clean_block 12288 (allocMany 8 4 8192 9 pool64).1 0 (by decide)
  ⟨by decide, rfl, h.1, h.2.2.1, (h.2.2.2.2.1 (Or.inl rfl)).2⟩

/-- Claim C7.  A second `reset(0)` changes nothing: the call returns and the manager is
the one left by the first `reset(0)`, which has one block with its cursor at its begin,
empty lists without chained lists in every table entry, and the block size it had. -/
theorem reset_zero_twice (nb nb2 : Nat) (st : MemMgr) :
    (st.reset nb 0).1.reset nb2 0 = ((st.reset nb 0).1, .ok ()) ∧
    (st.reset nb 0).1._nextBlocks = [] ∧
    (st.reset nb 0).1._activeBlock._ptr = (st.reset nb 0).1._activeBlock._begin ∧
    (∀ i, ((st.reset nb 0).1._recycleList i).head._first = 0 ∧
      ((st.reset nb 0).1._recycleList i).rest = []) ∧
    (st.reset nb 0).1._blockSize = st._blockSize := by
  refine ⟨?_, rfl, rfl, fun i => ⟨rfl, rfl⟩, rfl⟩
  simp [MemMgr.reset, RecycleChain.reset, MemBlock.reset]

/-- Claim C8.  In a reachable manager, a request within the block size leaves the
number of blocks as it is or raises it by one, and raises it exactly when the probe of
the recycle list returned nothing and the active block has less room than the promoted
request; `free` and `freeArr` leave the number as it is; so does a request refused with
`bad_alloc`. -/
theorem block_count_steps (S fuel nb : Nat) (st : MemMgr) (t p : Nat)
    (hr : Reachable S st) :
    (toSizeT t ≤ st._blockSize →
      ((st.allocArr S fuel nb t).1.getNumBlocks = st.getNumBlocks ∨
        (st.allocArr S fuel nb t).1.getNumBlocks = st.getNumBlocks + 1) ∧
      ((st.allocArr S fuel nb t).1.getNumBlocks = st.getNumBlocks + 1 ↔
        (st.probe S fuel (toSizeT t)).2 = .ok 0 ∧
          st._activeBlock.getRemainSize < toSizeT t)) ∧
    (toSizeT S ≤ st._blockSize →
      ((st.alloc S fuel nb S).1.getNumBlocks = st.getNumBlocks ∨
        (st.alloc S fuel nb S).1.getNumBlocks = st.getNumBlocks + 1) ∧
      ((st.alloc S fuel nb S).1.getNumBlocks = st.getNumBlocks + 1 ↔
        (st.probe S fuel (toSizeT S)).2 = .ok 0 ∧
          st._activeBlock.getRemainSize < toSizeT S)) ∧
    (st.free fuel p).1.getNumBlocks = st.getNumBlocks ∧
    (st.freeArr fuel p).1.getNumBlocks = st.getNumBlocks ∧
    (st._blockSize < toSizeT t →
      (st.allocArr S fuel nb t).2 = .error .badAlloc ∧
      (st.allocArr S fuel nb t).1.getNumBlocks = st.getNumBlocks) := by
  have h := ReachableFrom.headsEmpty hr
  refine ⟨fun hcap => getMem_count S fuel nb st t h hcap, fun hcap => ?_, ?_, ?_,
    fun hbig => ?_⟩
  · have hc := getMem_count S fuel nb st S h hcap
    simpa [MemMgr.alloc] using hc
  · rw [free_headsEmpty fuel st p h]; rfl
  · rw [freeArr_headsEmpty fuel st p h]; rfl
  · unfold MemMgr.allocArr
    rw [getMem_badAlloc S fuel nb st t hbig]
    exact ⟨rfl, rfl⟩

/-- The theorem of claim C8 at the scenario manager after eight scalars, whose block is
full: the ninth `alloc` adds a block, `free` does not. -/
theorem block_count_steps_witness :
    (allocMany 8 4 8192 8 pool64).1.getNumBlocks = 1 ∧
    ((allocMany 8 4 8192 8 pool64).1.alloc 8 4 8192 8).1.getNumBlocks =
      (allocMany 8 4 8192 8 pool64).1.getNumBlocks + 1 ∧
    ((allocMany 8 4 8192 8 pool64).1.free 4 4112).1.getNumBlocks =
      (allocMany 8 4 8192 8 pool64).1.getNumBlocks :=
  have hr : Reachable 8 (allocMany 8 4 8192 8 pool64).1 :=
    .alloc _ _ _ _ (.alloc _ _ _ _ (.alloc _ _ _ _ (.alloc _ _ _ _ (.alloc _ _ _ _
      (.alloc _ _ _ _ (.alloc _ _ _ _ (.alloc _ _ _ _ (reachable_pool64 8))))))))
  have h := block_count_steps 8 4 8192 (allocMany 8 4 8192 8 pool64).1 8 4112 hr
  ⟨rfl, (h.2.1 (by decide)).2.2 ⟨rfl, by decide⟩, h.2.2.1⟩

/-- Claim C9 fails on the code.  The constructor accepts the block size 0, a multiple
of the word size; the block size is then below `toSizeT(S)` for `S = 8`, and `alloc(S)`
ends with `bad_alloc`. -/
theorem empty_block_rejects_scalar :
    MemMgr.new 0 4096 (fun _ => 0) = .ok (MemMgr.init 0 4096 (fun _ => 0)) ∧
    Reachable 8 (MemMgr.init 0 4096 (fun _ => 0)) ∧
    (MemMgr.init 0 4096 (fun _ => 0))._blockSize < toSizeT 8 ∧
    ((MemMgr.init 0 4096 (fun _ => 0)).alloc 8 4 8192 8).2 = .error .badAlloc :=
  ⟨rfl, ReachableFrom.new 0 4096 (fun _ => 0) _ trivial rfl, by decide, rfl⟩

/-- Claim C9 as amended.  When the constructor and every `reset` with a size other than
0 are called with a block size of at least `toSizeT(S)`, every reachable manager has a
block size of at least `toSizeT(S)`, and `alloc(S)` does not end with `bad_alloc`. -/
theorem blockSize_holds_scalar (S fuel nb : Nat) (st : MemMgr)
    (hr : ReachableFrom S (fun b => toSizeT S ≤ b) st) :
    toSizeT S ≤ st._blockSize ∧ (st.alloc S fuel nb S).2 ≠ .error .badAlloc := by
  have hcap : toSizeT S ≤ st._blockSize := hr.blockSize_good
  refine ⟨hcap, ?_⟩
  unfold MemMgr.alloc
  rw [if_neg (by simp)]
  cases hn : getArraySize S (toSizeT S) with
  | error e => rw [getMem_fault S fuel nb st S e hcap hn]; simp
  | ok n =>
    obtain ⟨q, hq⟩ := getMem_ok S fuel nb st S n hr.headsEmpty hcap hn
    rw [hq]; simp

/-- The theorem of claim C9 as amended, at the scenario manager with `S = 8`. -/
theorem blockSize_holds_scalar_witness :
    toSizeT 8 ≤ pool64._blockSize ∧ (pool64.alloc 8 4 8192 8).2 ≠ .error .badAlloc :=
  blockSize_holds_scalar 8 4 8192 pool64
    (ReachableFrom.new 64 4096 (fun _ => 0) pool64 (by decide) rfl)

/-- Claim C10 fails on the code.  For `S = 4` and one element the request is
`1 * 4 + 8 = 12` bytes, promoted to 16, and `getArraySize` gives the element count 2,
not 1. -/
theorem small_element_count_differs :
    1 ≤ 4 ∧ 1 ≤ 1 ∧ getArraySize 4 (toSizeT (1 * 4 + SIZE_T)) = .ok 2 ∧
    getArraySize 4 (toSizeT (1 * 4 + SIZE_T)) ≠ .ok 1 :=
  ⟨by decide, by decide, rfl, fun h => by injection h with h; exact absurd h (by decide)⟩

/-- Claim C10 as amended.  For `S ≥ 1` and `k ≥ 1` with `k * S` and two words below
`2 ^ 64`, the request of `k * S` bytes and one word is given the element count `k`
plus the padding of `k * S` to a word multiple divided by `S`; the count is `k` exactly
when that padding is less than `S`. -/
theorem getArraySize_of_tagged_request (S k : Nat) (hS : 1 ≤ S) (hk : 1 ≤ k)
    (hfit : k * S + 2 * SIZE_T ≤ SIZE_MOD) :
    getArraySize S (toSizeT (k * S + SIZE_T)) = .ok (k + (toSizeT (k * S) - k * S) / S) ∧
    (getArraySize S (toSizeT (k * S + SIZE_T)) = .ok k ↔ toSizeT (k * S) - k * S < S) := by
  have h2 : k * S + 16 ≤ 18446744073709551616 := hfit
  have e1 : toSizeT (k * S) = k * S + (8 - (k * S) % 8) % 8 :=
    toSizeT_eq _ (by show _ + 8 ≤ 18446744073709551616; omega)
  have e2 : toSizeT (k * S + SIZE_T) = k * S + 8 + (8 - (k * S) % 8) % 8 := by
    rw [toSizeT_eq _ (by show _ + 8 + 8 ≤ 18446744073709551616; omega)]
    show k * S + 8 + (8 - (k * S + 8) % 8) % 8 = _
    omega
  have hle : S ≤ k * S := Nat.le_mul_of_pos_left S hk
  have key : getArraySize S (toSizeT (k * S + SIZE_T)) =
      .ok (k + (toSizeT (k * S) - k * S) / S) := by
    rw [getArraySize_ok S _ (toSizeT_mod _) (by rw [e2]; omega), e1, e2]
    congr 1
    have h3 : k * S + 8 + (8 - k * S % 8) % 8 - SIZE_T = (8 - k * S % 8) % 8 + k * S := by
      show k * S + 8 + (8 - k * S % 8) % 8 - 8 = _
      omega
    rw [h3, Nat.add_mul_div_right _ _ (by omega : 0 < S)]
    have h4 : k * S + (8 - k * S % 8) % 8 - k * S = (8 - k * S % 8) % 8 := by omega
    rw [h4]; omega
  refine ⟨key, ?_⟩
  rw [key]
  constructor
  · intro h
    injection h with h
    have h0 : (toSizeT (k * S) - k * S) / S = 0 := by omega
    exact (Nat.div_eq_zero_iff (by omega : 0 < S)).mp h0
  · intro h
    rw [Nat.div_eq_of_lt h]
    rfl

/-- The theorem of claim C10 as amended, at `S = 8` and three elements. -/
theorem getArraySize_of_tagged_request_witness :
    getArraySize 8 (toSizeT (3 * 8 + SIZE_T)) = .ok (3 + (toSizeT (3 * 8) - 3 * 8) / 8) ∧
    (getArraySize 8 (toSizeT (3 * 8 + SIZE_T)) = .ok 3 ↔ toSizeT (3 * 8) - 3 * 8 < 8) :=
  getArraySize_of_tagged_request 8 3 (by decide) (by decide) (by decide)

/-! ## Lists in memory, block bounds and disjoint allocations -/

theorem numElmFrom_isList (mem : Nat → Nat) (xs : List Nat) :
    ∀ (p fuel : Nat), IsList mem p xs → xs.length ≤ fuel →
      MemRecycleList.numElmFrom mem fuel p = some xs.length := by
  induction xs with
  | nil =>
    intro p fuel h _
    simp only [IsList] at h
    subst h
    exact numElmFrom_null mem fuel
  | cons x xs ih =>
    intro p fuel h hf
    obtain ⟨hp, hx, hrest⟩ := h
    subst hx
    cases fuel with
    | zero => simp at hf
    | succ fuel =>
      have := ih (mem p) fuel hrest (by simpa using hf)
      simp [MemRecycleList.numElmFrom, hp, this]

theorem isList_update (mem : Nat → Nat) (q v : Nat) (xs : List Nat) :
    ∀ p, IsList mem p xs → q ∉ xs → IsList (Function.update mem q v) p xs := by
  induction xs with
  | nil => intro p h _; exact h
  | cons x xs ih =>
    intro p h hq
    obtain ⟨hp, hx, hrest⟩ := h
    have hne : x ≠ q := fun e => hq (by simp [e])
    refine ⟨hp, hx, ?_⟩
    rw [Function.update_noteq hne]
    exact ih _ hrest (fun hm => hq (List.mem_cons_of_mem _ hm))

/-- The blocks and the result of a call of `getMem` that passes the size check and the
assertions of `getArraySize`, when the table entries have empty lists of their own. -/
theorem getMem_blocks (S fuel nb : Nat) (st : MemMgr) (t n : Nat) (h : HeadsEmpty st)
    (hcap : toSizeT t ≤ st._blockSize) (hn : getArraySize S (toSizeT t) = .ok n) :
    (toSizeT t ≤ st._activeBlock.getRemainSize →
      (st.getMem S fuel nb t).2 = .ok st._activeBlock._ptr ∧
      (st.getMem S fuel nb t).1.blocks =
        { st._activeBlock with _ptr := st._activeBlock._ptr + toSizeT t } ::
          st._nextBlocks) ∧
    (¬ toSizeT t ≤ st._activeBlock.getRemainSize →
      (st.getMem S fuel nb t).2 = .ok nb ∧
      (st.getMem S fuel nb t).1.blocks =
        { _begin := nb, _ptr := nb + toSizeT t, _end := nb + st._blockSize } ::
          st._activeBlock :: st._nextBlocks) := by
  have hnext := getMem_nextBlocks S fuel nb st t n h hcap hn
  have hform := getMem_headsEmpty S fuel nb st t n h hcap hn
  constructor
  · intro hfit
    rw [if_pos hfit] at hnext hform
    unfold MemMgr.blocks
    rw [hnext, hform]
    exact ⟨rfl, rfl⟩
  · intro hfit
    rw [if_neg hfit] at hnext hform
    unfold MemMgr.blocks
    rw [hnext, hform]
    exact ⟨rfl, rfl⟩

theorem blocksOk_getMem (S fuel nb : Nat) (st : MemMgr) (t : Nat) (h : HeadsEmpty st)
    (hb : BlocksOk st) : BlocksOk (st.getMem S fuel nb t).1 := by
  by_cases hcap : toSizeT t ≤ st._blockSize
  · cases hn : getArraySize S (toSizeT t) with
    | error e => rw [getMem_fault S fuel nb st t e hcap hn]; exact hb
    | ok n =>
      have hbs := getMem_blockSize S fuel nb st t h
      have h8 : toSizeT t % 8 = 0 := toSizeT_mod t
      obtain ⟨h1, h2⟩ := getMem_blocks S fuel nb st t n h hcap hn
      have hact := hb st._activeBlock (List.mem_cons_self _ _)
      intro blk hblk
      rw [hbs]
      by_cases hfit : toSizeT t ≤ st._activeBlock.getRemainSize
      · rw [(h1 hfit).2] at hblk
        rcases List.mem_cons.mp hblk with hblk | hblk
        · subst hblk
          unfold MemBlock.getRemainSize at hfit
          refine ⟨?_, ?_, hact.2.2.1, ?_⟩
          · show st._activeBlock._begin ≤ st._activeBlock._ptr + toSizeT t
            omega
          · show st._activeBlock._ptr + toSizeT t ≤ st._activeBlock._end
            omega
          · show (st._activeBlock._ptr + toSizeT t - st._activeBlock._begin) % 8 = 0
            have := hact.2.2.2
            have : (st._activeBlock._ptr - st._activeBlock._begin) % 8 = 0 := this
            omega
        · exact hb blk (List.mem_cons_of_mem _ hblk)
      · rw [(h2 hfit).2] at hblk
        rcases List.mem_cons.mp hblk with hblk | hblk
        · subst hblk
          refine ⟨?_, ?_, rfl, ?_⟩
          · show nb ≤ nb + toSizeT t
            omega
          · show nb + toSizeT t ≤ nb + st._blockSize
            omega
          · show (nb + toSizeT t - nb) % 8 = 0
            omega
        · exact hb blk hblk
  · rw [getMem_badAlloc S fuel nb st t (Nat.lt_of_not_le hcap)]; exact hb

theorem blocksOk_reset (nb : Nat) (st : MemMgr) (b : Nat) (hb : BlocksOk st) :
    BlocksOk (st.reset nb b).1 := by
  unfold MemMgr.reset
  split
  · exact hb
  · split
    · intro blk hblk
      simp only [MemMgr.blocks, List.mem_singleton] at hblk
      subst hblk
      have hlast := hb _ (List.getLast_mem (List.cons_ne_nil st._activeBlock st._nextBlocks))
      exact ⟨Nat.le_refl _, by simpa [MemBlock.reset] using Nat.le_trans hlast.1 hlast.2.1,
        hlast.2.2.1, by simp [MemBlock.reset]⟩
    · intro blk hblk
      simp only [MemMgr.blocks, List.mem_singleton] at hblk
      subst hblk
      exact ⟨Nat.le_refl _, by simp [MemBlock.new], rfl, by simp [MemBlock.new]⟩

theorem ReachableFrom.blocksOk {S : Nat} {good : Nat → Prop} {st : MemMgr}
    (h : ReachableFrom S good st) : BlocksOk st := by
  induction h with
  | new b nb mem st _ hnew =>
    unfold MemMgr.new at hnew
    split at hnew
    · cases hnew
    · injection hnew with hnew
      subst hnew
      intro blk hblk
      simp only [MemMgr.blocks, MemMgr.init, List.mem_singleton] at hblk
      subst hblk
      exact ⟨Nat.le_refl _, by simp [MemBlock.new], rfl, by simp [MemBlock.new]⟩
  | alloc fuel nb t st hr ih =>
    unfold MemMgr.alloc
    split
    · exact ih
    · exact blocksOk_getMem S fuel nb st t hr.headsEmpty ih
  | allocArr fuel nb t st hr ih => exact blocksOk_getMem S fuel nb st t hr.headsEmpty ih
  | free fuel p st hr ih => rw [free_headsEmpty fuel st p hr.headsEmpty]; exact ih
  | freeArr fuel p st hr ih => rw [freeArr_headsEmpty fuel st p hr.headsEmpty]; exact ih
  | reset nb b st _ _ ih => exact blocksOk_reset nb st b ih
  | store a v st _ ih => exact ih

theorem getArraySize_of_probe (S fuel : Nat) (st : MemMgr) (t q : Nat)
    (h : (st.probe S fuel t).2 = .ok q) : ∃ n, getArraySize S t = .ok n := by
  cases hn : getArraySize S t with
  | error e => rw [probe_fault S fuel st t e hn] at h; cases h
  | ok n => exact ⟨n, rfl⟩

theorem getMem_outcome (S fuel nb : Nat) (st : MemMgr) (t : Nat) (h : HeadsEmpty st) :
    ((st.getMem S fuel nb t).1 = st ∧ st.served S fuel nb t = [] ∧
      st.salvaged S fuel t = []) ∨
    (toSizeT t ≤ st._activeBlock.getRemainSize ∧
      (st.getMem S fuel nb t).1.blocks =
        { st._activeBlock with _ptr := st._activeBlock._ptr + toSizeT t } ::
          st._nextBlocks ∧
      st.served S fuel nb t =
        [({ addr := st._activeBlock._ptr, size := toSizeT t },
          { st._activeBlock with _ptr := st._activeBlock._ptr + toSizeT t })] ∧
      st.salvaged S fuel t = []) ∨
    (st._activeBlock.getRemainSize < toSizeT t ∧ toSizeT t ≤ st._blockSize ∧
      (st.getMem S fuel nb t).1.blocks =
        { _begin := nb, _ptr := nb + toSizeT t, _end := nb + st._blockSize } ::
          st._activeBlock :: st._nextBlocks ∧
      st.served S fuel nb t =
        [({ addr := nb, size := toSizeT t },
          { _begin := nb, _ptr := nb + toSizeT t, _end := nb + st._blockSize })] ∧
      st.salvaged S fuel t =
        if S < downtoSizeT st._activeBlock.getRemainSize then
          [{ addr := st._activeBlock._ptr
             size := downtoSizeT st._activeBlock.getRemainSize }]
        else []) := by
  by_cases hcap : toSizeT t ≤ st._blockSize
  · cases hn : getArraySize S (toSizeT t) with
    | error e =>
      refine Or.inl ⟨?_, ?_, ?_⟩
      · rw [getMem_fault S fuel nb st t e hcap hn]
      · simp only [MemMgr.served, getMem_fault S fuel nb st t e hcap hn]
      · simp only [MemMgr.salvaged, probe_fault S fuel st _ e hn, if_pos hcap]
    | ok n =>
      obtain ⟨h1, h2⟩ := getMem_blocks S fuel nb st t n h hcap hn
      have hprobe : (st.probe S fuel (toSizeT t)).2 = .ok 0 := by
        rw [probe_headsEmpty S fuel st _ n h hn]
      by_cases hfit : toSizeT t ≤ st._activeBlock.getRemainSize
      · obtain ⟨hq, hbl⟩ := h1 hfit
        have ha : (st.getMem S fuel nb t).1._activeBlock =
            { st._activeBlock with _ptr := st._activeBlock._ptr + toSizeT t } := by
          unfold MemMgr.blocks at hbl
          injection hbl
        refine Or.inr (Or.inl ⟨hfit, hbl, ?_, ?_⟩)
        · simp only [MemMgr.served, hq, ha]
        · simp only [MemMgr.salvaged, hprobe, if_pos hcap]
          rw [if_neg (fun hc => absurd hfit (Nat.not_le.mpr hc.1))]
      · obtain ⟨hq, hbl⟩ := h2 hfit
        have ha : (st.getMem S fuel nb t).1._activeBlock =
            { _begin := nb, _ptr := nb + toSizeT t, _end := nb + st._blockSize } := by
          unfold MemMgr.blocks at hbl
          injection hbl
        refine Or.inr (Or.inr ⟨Nat.lt_of_not_le hfit, hcap, hbl, ?_, ?_⟩)
        · simp only [MemMgr.served, hq, ha]
        · simp only [MemMgr.salvaged, hprobe, if_pos hcap]
          simp [Nat.lt_of_not_le hfit]
  · refine Or.inl ⟨?_, ?_, ?_⟩
    · rw [getMem_badAlloc S fuel nb st t (Nat.lt_of_not_le hcap)]
    · simp only [MemMgr.served, getMem_badAlloc S fuel nb st t (Nat.lt_of_not_le hcap)]
    · simp only [MemMgr.salvaged, if_neg hcap]

theorem Span.Disjoint.symm {x y : Span} (h : x.Disjoint y) : y.Disjoint x :=
  Or.symm h

theorem nextBlocks_of_blocks (st : MemMgr) (a : MemBlock) (l : List MemBlock)
    (h : st.blocks = a :: l) : st._activeBlock = a ∧ st._nextBlocks = l := by
  unfold MemMgr.blocks at h
  injection h with h1 h2
  exact ⟨h1, h2⟩

/-- One call of `getMem` on a sound manager, with a fresh address for a new block. -/
theorem getMem_step (S fuel nb : Nat) (st : MemMgr) (t : Nat) (hg : Sound st)
    (hf : Fresh st nb) :
    Sound (st.getMem S fuel nb t).1 ∧
    (∀ y, Used st y → Used (st.getMem S fuel nb t).1 y) ∧
    (∀ y, Spare st y → Spare (st.getMem S fuel nb t).1 y) ∧
    (∀ e ∈ st.served S fuel nb t,
      e.2._begin ≤ e.1.addr ∧ e.1.addr + e.1.size ≤ e.2._end ∧
      Used (st.getMem S fuel nb t).1 e.1 ∧
      (∀ y, Used st y → e.1.Disjoint y) ∧ (∀ y, Spare st y → e.1.Disjoint y)) ∧
    (∀ z ∈ st.salvaged S fuel t,
      Spare (st.getMem S fuel nb t).1 z ∧ (∀ y, Used st y → z.Disjoint y) ∧
      (∀ e ∈ st.served S fuel nb t, z.Disjoint e.1)) := by
  obtain ⟨h, hb, hap⟩ := hg
  have hh' := headsEmpty_getMem S fuel nb st t h
  have hb' := blocksOk_getMem S fuel nb st t h hb
  have hact := hb st._activeBlock (List.mem_cons_self _ _)
  obtain ⟨ha1, ha2, ha3, _⟩ := hact
  have hapc : (∀ b ∈ st._nextBlocks, st._activeBlock.Apart b) ∧
      st._nextBlocks.Pairwise MemBlock.Apart := List.pairwise_cons.mp hap
  rcases getMem_outcome S fuel nb st t h with ⟨hst, hsv, hsl⟩ | ⟨hfit, hbl, hsv, hsl⟩ |
    ⟨hfull, hcap, hbl, hsv, hsl⟩
  · rw [hsv, hsl, hst]
    exact ⟨⟨h, hb, hap⟩, fun _ hy => hy, fun _ hy => hy, by simp, by simp⟩
  · obtain ⟨_, hnx⟩ := nextBlocks_of_blocks _ _ _ hbl
    have hfit' : st._activeBlock._ptr + toSizeT t ≤ st._activeBlock._end := by
      unfold MemBlock.getRemainSize at hfit; omega
    have hused : Used (st.getMem S fuel nb t).1
        { addr := st._activeBlock._ptr, size := toSizeT t } := by
      refine ⟨{ st._activeBlock with _ptr := st._activeBlock._ptr + toSizeT t },
        by rw [hbl]; exact List.mem_cons_self _ _, ha1, Nat.le_refl _⟩
    rw [hsv, hsl]
    refine ⟨⟨hh', hb', ?_⟩, ?_, ?_, ?_, by simp⟩
    · rw [hbl]
      exact List.pairwise_cons.mpr ⟨fun b hbm => hapc.1 b hbm, hapc.2⟩
    · rintro y ⟨blk, hblk, hy1, hy2⟩
      rcases List.mem_cons.mp hblk with hblk | hblk
      · subst hblk
        refine ⟨{ st._activeBlock with _ptr := st._activeBlock._ptr + toSizeT t },
          by rw [hbl]; exact List.mem_cons_self _ _, hy1, ?_⟩
        show y.addr + y.size ≤ st._activeBlock._ptr + toSizeT t
        omega
      · exact ⟨blk, by rw [hbl]; exact List.mem_cons_of_mem _ hblk, hy1, hy2⟩
    · rintro y ⟨blk, hblk, hy1, hy2⟩
      exact ⟨blk, by rw [hnx]; exact hblk, hy1, hy2⟩
    · intro e he
      simp only [List.mem_singleton] at he
      subst he
      refine ⟨ha1, hfit', hused, ?_, ?_⟩
      · rintro y ⟨blk, hblk, hy1, hy2⟩
        rcases List.mem_cons.mp hblk with hblk | hblk
        · subst hblk
          exact Or.inr hy2
        · obtain ⟨hk1, hk2, _, _⟩ := hb blk (List.mem_cons_of_mem _ hblk)
          rcases hapc.1 blk hblk with hd | hd
          · exact Or.inl (by show st._activeBlock._ptr + toSizeT t ≤ y.addr; omega)
          · exact Or.inr (by show y.addr + y.size ≤ st._activeBlock._ptr; omega)
      · rintro y ⟨blk, hblk, hy1, hy2⟩
        obtain ⟨hk1, hk2, _, _⟩ := hb blk (List.mem_cons_of_mem _ hblk)
        rcases hapc.1 blk hblk with hd | hd
        · exact Or.inl (by show st._activeBlock._ptr + toSizeT t ≤ y.addr; omega)
        · exact Or.inr (by show y.addr + y.size ≤ st._activeBlock._ptr; omega)
  · obtain ⟨_, hnx⟩ := nextBlocks_of_blocks _ _ _ hbl
    have hfa := hf st._activeBlock (List.mem_cons_self _ _)
    have hdown : downtoSizeT st._activeBlock.getRemainSize ≤
        st._activeBlock._end - st._activeBlock._ptr := by
      unfold downtoSizeT MemBlock.getRemainSize; omega
    have hused : Used (st.getMem S fuel nb t).1 { addr := nb, size := toSizeT t } := by
      refine ⟨{ _begin := nb, _ptr := nb + toSizeT t, _end := nb + st._blockSize },
        by rw [hbl]; exact List.mem_cons_self _ _, Nat.le_refl _, Nat.le_refl _⟩
    have hserved_used : ∀ y, Used st y →
        (({ addr := nb, size := toSizeT t } : Span)).Disjoint y := by
      rintro y ⟨blk, hblk, hy1, hy2⟩
      obtain ⟨hk1, hk2, _, _⟩ := hb blk hblk
      rcases hf blk hblk with hd | hd
      · exact Or.inl (by show nb + toSizeT t ≤ y.addr; omega)
      · exact Or.inr (by show y.addr + y.size ≤ nb; omega)
    have hserved_spare : ∀ y, Spare st y →
        (({ addr := nb, size := toSizeT t } : Span)).Disjoint y := by
      rintro y ⟨blk, hblk, hy1, hy2⟩
      obtain ⟨hk1, hk2, _, _⟩ := hb blk (List.mem_cons_of_mem _ hblk)
      rcases hf blk (List.mem_cons_of_mem _ hblk) with hd | hd
      · exact Or.inl (by show nb + toSizeT t ≤ y.addr; omega)
      · exact Or.inr (by show y.addr + y.size ≤ nb; omega)
    rw [hsv, hsl]
    refine ⟨⟨hh', hb', ?_⟩, ?_, ?_, ?_, ?_⟩
    · rw [hbl]
      refine List.pairwise_cons.mpr ⟨fun b hbm => ?_, hap⟩
      rcases hf b hbm with hd | hd
      · exact Or.inl hd
      · exact Or.inr hd
    · rintro y ⟨blk, hblk, hy1, hy2⟩
      exact ⟨blk, by rw [hbl]; exact List.mem_cons_of_mem _ hblk, hy1, hy2⟩
    · rintro y ⟨blk, hblk, hy1, hy2⟩
      exact ⟨blk, by rw [hnx]; exact List.mem_cons_of_mem _ hblk, hy1, hy2⟩
    · intro e he
      simp only [List.mem_singleton] at he
      subst he
      exact ⟨Nat.le_refl _, by show nb + toSizeT t ≤ nb + st._blockSize; omega, hused,
        hserved_used, hserved_spare⟩
    · intro z hz
      split at hz
      · simp only [List.mem_singleton] at hz
        subst hz
        refine ⟨⟨st._activeBlock, by rw [hnx]; exact List.mem_cons_self _ _,
          Nat.le_refl _, ?_⟩, ?_, ?_⟩
        · show st._activeBlock._ptr + downtoSizeT _ ≤ st._activeBlock._end
          omega
        · rintro y ⟨blk, hblk, hy1, hy2⟩
          rcases List.mem_cons.mp hblk with hblk | hblk
          · subst hblk
            exact Or.inr hy2
          · obtain ⟨hk1, hk2, _, _⟩ := hb blk (List.mem_cons_of_mem _ hblk)
            rcases hapc.1 blk hblk with hd | hd
            · exact Or.inl (by
                show st._activeBlock._ptr + downtoSizeT _ ≤ y.addr
                omega)
            · exact Or.inr (by show y.addr + y.size ≤ st._activeBlock._ptr; omega)
        · intro e he
          simp only [List.mem_singleton] at he
          subst he
          rcases hfa with hd | hd
          · exact Or.inr (by show nb + toSizeT t ≤ st._activeBlock._ptr; omega)
          · exact Or.inl (by
              show st._activeBlock._ptr + downtoSizeT _ ≤ nb
              omega)
      · simp at hz

theorem alloc_self (S fuel nb : Nat) (st : MemMgr) :
    st.alloc S fuel nb S = st.getMem S fuel nb S := by
  simp [MemMgr.alloc]

theorem call_step (S fuel : Nat) (st : MemMgr) (c : Call) (hg : Sound st)
    (hf : c.IsFresh st) :
    Sound (c.run S fuel st) ∧
    (∀ y, Used st y → Used (c.run S fuel st) y) ∧
    (∀ y, Spare st y → Spare (c.run S fuel st) y) ∧
    (∀ e ∈ c.served S fuel st,
      e.2._begin ≤ e.1.addr ∧ e.1.addr + e.1.size ≤ e.2._end ∧
      Used (c.run S fuel st) e.1 ∧
      (∀ y, Used st y → e.1.Disjoint y) ∧ (∀ y, Spare st y → e.1.Disjoint y)) ∧
    (∀ z ∈ c.salvaged S fuel st,
      Spare (c.run S fuel st) z ∧ (∀ y, Used st y → z.Disjoint y) ∧
      (∀ e ∈ c.served S fuel st, z.Disjoint e.1)) := by
  cases c with
  | alloc nb =>
    simp only [Call.run, Call.served, Call.salvaged, alloc_self]
    exact getMem_step S fuel nb st S hg hf
  | allocArr nb t =>
    simp only [Call.run, Call.served, Call.salvaged, MemMgr.allocArr]
    exact getMem_step S fuel nb st t hg hf
  | free p =>
    obtain ⟨h, hb, hap⟩ := hg
    simp only [Call.run, Call.served, Call.salvaged, free_headsEmpty fuel st p h]
    refine ⟨⟨?_, hb, hap⟩, fun _ hy => hy, fun _ hy => hy, by simp, by simp⟩
    have := headsEmpty_free fuel st p h
    rwa [free_headsEmpty fuel st p h] at this
  | freeArr p =>
    obtain ⟨h, hb, hap⟩ := hg
    simp only [Call.run, Call.served, Call.salvaged, freeArr_headsEmpty fuel st p h]
    refine ⟨⟨?_, hb, hap⟩, fun _ hy => hy, fun _ hy => hy, by simp, by simp⟩
    have := headsEmpty_freeArr fuel st p h
    rwa [freeArr_headsEmpty fuel st p h] at this
  | store a v =>
    simp only [Call.run, Call.served, Call.salvaged]
    exact ⟨hg, fun _ hy => hy, fun _ hy => hy, by simp, by simp⟩

theorem calls_disjoint (S fuel : Nat) (calls : List Call) :
    ∀ st, Sound st → FreshAll S fuel calls st →
      (∀ e ∈ servedAll S fuel calls st,
        e.2._begin ≤ e.1.addr ∧ e.1.addr + e.1.size ≤ e.2._end) ∧
      (servedAll S fuel calls st).Pairwise (fun e f => e.1.Disjoint f.1) ∧
      (∀ z ∈ salvagedAll S fuel calls st, ∀ e ∈ servedAll S fuel calls st,
        z.Disjoint e.1) ∧
      (∀ e ∈ servedAll S fuel calls st, ∀ y, Used st y → e.1.Disjoint y) ∧
      (∀ e ∈ servedAll S fuel calls st, ∀ y, Spare st y → e.1.Disjoint y) ∧
      (∀ z ∈ salvagedAll S fuel calls st, ∀ y, Used st y → z.Disjoint y) := by
  induction calls with
  | nil =>
    intro st _ _
    simp [servedAll, salvagedAll]
  | cons c cs ih =>
    intro st hg hf
    obtain ⟨hfc, hfs⟩ := hf
    obtain ⟨hg', hused, hspare, hserved, hsalv⟩ := call_step S fuel st c hg hfc
    obtain ⟨i1, i2, i3, i4, i5, i6⟩ := ih (c.run S fuel st) hg' hfs
    simp only [servedAll, salvagedAll]
    refine ⟨?_, ?_, ?_, ?_, ?_, ?_⟩
    · intro e he
      rcases List.mem_append.mp he with he | he
      · exact ⟨(hserved e he).1, (hserved e he).2.1⟩
      · exact i1 e he
    · refine List.pairwise_append.mpr ⟨?_, i2, ?_⟩
      · cases c <;> simp only [Call.served, MemMgr.served] <;>
          first
            | exact List.Pairwise.nil
            | (split <;> simp)
      · intro e he f hf'
        exact (i4 f hf' e.1 (hserved e he).2.2.1).symm
    · intro z hz e he
      rcases List.mem_append.mp hz with hz | hz <;> rcases List.mem_append.mp he with he | he
      · exact (hsalv z hz).2.2 e he
      · exact (i5 e he z (hsalv z hz).1).symm
      · exact i6 z hz e.1 (hserved e he).2.2.1
      · exact i3 z hz e he
    · intro e he y hy
      rcases List.mem_append.mp he with he | he
      · exact (hserved e he).2.2.2.1 y hy
      · exact i4 e he y (hused y hy)
    · intro e he y hy
      rcases List.mem_append.mp he with he | he
      · exact (hserved e he).2.2.2.2 y hy
      · exact i5 e he y (hspare y hy)
    · intro z hz y hy
      rcases List.mem_append.mp hz with hz | hz
      · exact (hsalv z hz).2.1 y hy
      · exact i6 z hz y (hused y hy)

/-! ## The claims C11 to C20 -/

/-- The element count of a scalar request.  For an element size `S ≥ 1` that `toSizeT`
does not wrap around, as every value of `sizeof(T)` is, the promoted scalar size passes
both assertions of `getArraySize` and has the element count
`(toSizeT(S) - SIZE_T) / S = 0`, also when `S` is smaller than a machine word. -/
theorem scalar_count_is_zero (S : Nat) (hS : 1 ≤ S) (hsize : S + SIZE_T ≤ SIZE_MOD) :
    toSizeT S % SIZE_T = 0 ∧ S ≤ toSizeT S ∧
    (toSizeT S - SIZE_T) / S = 0 ∧
    getArraySize S (toSizeT S) = .ok 0 := by
  have e : toSizeT S = S + (8 - S % 8) % 8 := toSizeT_eq S hsize
  have h8 : toSizeT S % SIZE_T = 0 := toSizeT_mod S
  have hle : S ≤ toSizeT S := by rw [e]; omega
  have hz : (toSizeT S - SIZE_T) / S = 0 := by
    apply Nat.div_eq_of_lt
    rw [e]
    show S + (8 - S % 8) % 8 - 8 < S
    omega
  have hn : getArraySize S (toSizeT S) = .ok 0 := by
    rw [getArraySize_ok S _ h8 hle, hz]
  exact ⟨h8, hle, hz, hn⟩

/-- Claim C11 fails on the code.  Block size 64, `S = 4`, half a machine word: the
scalar request has the element count 0, as the claim says, and `alloc(4)` returns 4096.
`free(4096)` pushes the address on a list for the count 0 behind the table entry 0;
popping that list would give 4096.  The probe of the next `alloc(4)` looks up the count
0 as well, but is handed a new empty list, which replaces the list `free` pushed on: it
returns null, the address 4096 is on no list of the entry any more, and `alloc(4)`
returns 4104. -/
theorem scalar_probe_misses_freed_list :
    getArraySize 4 (toSizeT 4) = .ok 0 ∧
    (pool64.alloc 4 4 8192 4).2 = .ok 4096 ∧
    ((pool64.alloc 4 4 8192 4).1.free 4 4096).2 = .ok () ∧
    freed4._recycleList (slotOf 0) =
      { head := { _arrSize := 0, _first := 0 }
        rest := [{ _arrSize := 0, _first := 4096 }] } ∧
    (((freed4._recycleList (slotOf 0)).get 1).popFront freed4.mem).2 = 4096 ∧
    (freed4.getMemRecycleList 4 0).2 = .ok (slotOf 0, 1) ∧
    (freed4.getMemRecycleList 4 0).1._recycleList (slotOf 0) =
      { head := { _arrSize := 0, _first := 0 }, rest := [{ _arrSize := 0, _first := 0 }] } ∧
    (freed4.probe 4 4 (toSizeT 4)).2 = .ok 0 ∧
    (freed4.probe 4 4 (toSizeT 4)).1._recycleList (slotOf 0) =
      { head := { _arrSize := 0, _first := 0 }, rest := [{ _arrSize := 0, _first := 0 }] } ∧
    (freed4.alloc 4 4 8192 4).2 = .ok 4104 :=
  ⟨rfl, rfl, rfl, rfl, rfl, rfl, rfl, rfl, rfl, rfl⟩

/-- Claim C12 fails on the code.  On the new manager of the scenarios the table entry 0
is the list for the length 0, yet `getMemRecycleList(0)` does not return it (position
0) but a new list at position 1.  After three scalars and `free(4112)` the chain of entry
0 holds the list with 4112; the next `getMemRecycleList(0)` returns a new empty list
again and the list with 4112 is gone from the chain. -/
theorem lookup_misses_existing_list :
    (pool64._recycleList (slotOf 0)).head._arrSize = 0 ∧
    (pool64.getMemRecycleList 4 0).2 = .ok (slotOf 0, 1) ∧
    (pool64.getMemRecycleList 4 0).1._recycleList (slotOf 0) =
      { head := { _arrSize := 0, _first := 0 }, rest := [{ _arrSize := 0, _first := 0 }] } ∧
    ((allocMany 8 4 8192 3 pool64).1.free 4 4112).1._recycleList (slotOf 0) =
      { head := { _arrSize := 0, _first := 0 }
        rest := [{ _arrSize := 0, _first := 4112 }] } ∧
    (((allocMany 8 4 8192 3 pool64).1.free 4 4112).1.getMemRecycleList 4 0).2 =
      .ok (slotOf 0, 1) ∧
    (((allocMany 8 4 8192 3 pool64).1.free 4 4112).1.getMemRecycleList 4 0).1._recycleList
        (slotOf 0) =
      { head := { _arrSize := 0, _first := 0 }, rest := [{ _arrSize := 0, _first := 0 }] } :=
  ⟨rfl, rfl, rfl, rfl, rfl, rfl⟩

/-- Claim C13.  For a block with its cursor between its begin and its end and a size `n`
that `toSizeT` does not wrap around, `toSizeT n` is the least word multiple not below
`n`; `MemBlock::getMem(n)` returns false, keeps the cursor and puts it in `ret` when the
room left is below `toSizeT n`, and otherwise returns true, puts the old cursor in `ret`
and moves the cursor on by `toSizeT n`, not past the end; begin and end stay. -/
theorem block_getMem_spec (blk : MemBlock) (n : Nat)
    (_hlo : blk._begin ≤ blk._ptr) (hhi : blk._ptr ≤ blk._end)
    (hn : n + SIZE_T ≤ SIZE_MOD) :
    toSizeT n % SIZE_T = 0 ∧ n ≤ toSizeT n ∧ toSizeT n < n + SIZE_T ∧
    (blk._end - blk._ptr < toSizeT n →
      blk.getMem n = (blk, false, blk._ptr)) ∧
    (¬ blk._end - blk._ptr < toSizeT n →
      blk.getMem n = ({ blk with _ptr := blk._ptr + toSizeT n }, true, blk._ptr) ∧
      blk._ptr + toSizeT n ≤ blk._end) ∧
    (blk.getMem n).1._begin = blk._begin ∧ (blk.getMem n).1._end = blk._end := by
  have e : toSizeT n = n + (8 - n % 8) % 8 := toSizeT_eq n hn
  refine ⟨toSizeT_mod n, by rw [e]; omega, by rw [e]; show _ < n + 8; omega, ?_, ?_, ?_⟩
  · intro h
    simp [MemBlock.getMem, MemBlock.getRemainSize, h]
  · intro h
    refine ⟨by simp [MemBlock.getMem, MemBlock.getRemainSize, h], by omega⟩
  · unfold MemBlock.getMem
    split <;> exact ⟨rfl, rfl⟩

/-- The theorem of claim C13 at a block with 24 and with 8 bytes left and a request of
12 bytes. -/
theorem block_getMem_spec_witness :
    toSizeT 12 = 16 ∧
    ({ _begin := 4096, _ptr := 4136, _end := 4160 } : MemBlock).getMem 12 =
      ({ _begin := 4096, _ptr := 4152, _end := 4160 }, true, 4136) ∧
    ({ _begin := 4096, _ptr := 4152, _end := 4160 } : MemBlock).getMem 12 =
      ({ _begin := 4096, _ptr := 4152, _end := 4160 }, false, 4152) :=
  have h1 := block_getMem_spec { _begin := 4096, _ptr := 4136, _end := 4160 } 12
    (by decide) (by decide) (by decide)
  have h2 := block_getMem_spec { _begin := 4096, _ptr := 4152, _end := 4160 } 12
    (by decide) (by decide) (by decide)
  ⟨by decide, (h1.2.2.2.2.1 (by decide)).1, h2.2.2.2.1 (by decide)⟩

/-- Claim C14.  Let the list of `l` be acyclic, with the nodes `xs`, and `p` a non-null
address that is not one of them.  `pushFront(p)` stores the old head in the word at `p`,
makes `p` the head and changes no other word; a following `popFront` returns `p` and
gives back `l`.  `popFront` on an empty list returns null and leaves the list.  With
enough fuel `numElm` is the number of nodes, one more after the push, the same again
after the pop; a pop from a list that is not empty returns its first node and leaves
one node less. -/
theorem pushFront_popFront (mem : Nat → Nat) (l : MemRecycleList) (p : Nat)
    (xs : List Nat) (fuel : Nat) (hlist : IsList mem l._first xs) (hp : p ≠ 0)
    (hnew : p ∉ xs) (hfuel : xs.length ≤ fuel) :
    (l.pushFront mem p).1 p = l._first ∧
    (l.pushFront mem p).2._first = p ∧
    (l.pushFront mem p).2._arrSize = l._arrSize ∧
    (∀ a, a ≠ p → (l.pushFront mem p).1 a = mem a) ∧
    (l.pushFront mem p).2.popFront (l.pushFront mem p).1 = (l, p) ∧
    ({ l with _first := 0 } : MemRecycleList).popFront mem = ({ l with _first := 0 }, 0) ∧
    l.numElm fuel mem = some xs.length ∧
    (l.pushFront mem p).2.numElm (fuel + 1) (l.pushFront mem p).1 = some (xs.length + 1) ∧
    ((l.pushFront mem p).2.popFront (l.pushFront mem p).1).1.numElm fuel
      (l.pushFront mem p).1 = some xs.length ∧
    (∀ x ys, xs = x :: ys →
      (l.popFront mem).2 = x ∧ (l.popFront mem).1._first = mem x ∧
      (l.popFront mem).1.numElm fuel mem = some (xs.length - 1)) := by
  have hpush : IsList (Function.update mem p l._first) l._first xs :=
    isList_update mem p _ xs _ hlist hnew
  have hpop : (l.pushFront mem p).2.popFront (l.pushFront mem p).1 = (l, p) := by
    simp [MemRecycleList.pushFront, MemRecycleList.popFront, hp]
  refine ⟨by simp [MemRecycleList.pushFront], rfl, rfl, ?_, hpop, ?_, ?_, ?_, ?_, ?_⟩
  · intro a ha
    simp [MemRecycleList.pushFront, Function.update_noteq ha]
  · simp [MemRecycleList.popFront]
  · exact numElmFrom_isList mem xs _ fuel hlist hfuel
  · have h2 : IsList (Function.update mem p l._first) p (p :: xs) :=
      ⟨hp, rfl, by simpa using hpush⟩
    exact numElmFrom_isList _ (p :: xs) p (fuel + 1) h2 (by simpa using hfuel)
  · rw [hpop]
    exact numElmFrom_isList _ xs _ fuel hpush hfuel
  · intro x ys hxs
    subst hxs
    obtain ⟨h0, hx, hrest⟩ := hlist
    have hpopl : l.popFront mem = ({ l with _first := mem l._first }, l._first) := by
      simp [MemRecycleList.popFront, h0]
    rw [hpopl]
    refine ⟨hx, by rw [hx], ?_⟩
    have := numElmFrom_isList mem ys (mem x) fuel hrest (by simp at hfuel; omega)
    simpa [MemRecycleList.numElm, hx] using this

/-- The theorem of claim C14 at the list 4104, 4096 and the address 4112. -/
theorem pushFront_popFront_witness :
    (({ _arrSize := 0, _first := 4104 } : MemRecycleList).pushFront
        (Function.update (fun _ => 0) 4104 4096) 4112).2.popFront
      (({ _arrSize := 0, _first := 4104 } : MemRecycleList).pushFront
        (Function.update (fun _ => 0) 4104 4096) 4112).1 =
      ({ _arrSize := 0, _first := 4104 }, 4112) ∧
    (({ _arrSize := 0, _first := 4104 } : MemRecycleList).pushFront
        (Function.update (fun _ => 0) 4104 4096) 4112).2.numElm 3
      (({ _arrSize := 0, _first := 4104 } : MemRecycleList).pushFront
        (Function.update (fun _ => 0) 4104 4096) 4112).1 = some 3 :=
  have h := pushFront_popFront (Function.update (fun _ => 0) 4104 4096)
    { _arrSize := 0, _first := 4104 } 4112 [4104, 4096] 2
    ⟨by decide, rfl, by decide, rfl, rfl⟩ (by decide) (by decide) (by decide)
  ⟨h.2.2.2.2.1, h.2.2.2.2.2.2.2.1⟩

/-- Claim C15.  In a reachable manager, when a request within the block size finds
nothing on the recycle list and no room in the active block, the bump allocation on the
new block succeeds: `getMem` returns the begin `nb` of the new block, whose cursor is
at `nb + toSizeT t` and whose next block is the old active block. -/
theorem retry_on_new_block_succeeds (S fuel nb : Nat) (st : MemMgr) (t : Nat)
    (hr : Reachable S st) (hcap : toSizeT t ≤ st._blockSize)
    (hmiss : (st.probe S fuel (toSizeT t)).2 = .ok 0)
    (hfull : st._activeBlock.getRemainSize < toSizeT t) :
    ((MemBlock.new nb st._blockSize).getMem (toSizeT t)).2.1 = true ∧
    (st.getMem S fuel nb t).2 = .ok nb ∧
    (st.getMem S fuel nb t).1._activeBlock =
      { _begin := nb, _ptr := nb + toSizeT t, _end := nb + st._blockSize } ∧
    (st.getMem S fuel nb t).1._nextBlocks = st._activeBlock :: st._nextBlocks ∧
    (st.getMem S fuel nb t).1._blockSize = st._blockSize := by
  have h := hr.headsEmpty
  obtain ⟨n, hn⟩ := getArraySize_of_probe S fuel st _ 0 hmiss
  have hb := (getMem_blocks S fuel nb st t n h hcap hn).2 (Nat.not_le.mpr hfull)
  have hblocks := hb.2
  unfold MemMgr.blocks at hblocks
  injection hblocks with ha hnx
  refine ⟨?_, hb.1, ha, hnx, getMem_blockSize S fuel nb st t h⟩
  rw [blockGetMem_of_mod _ _ (toSizeT_mod t)]
  simp [MemBlock.new, MemBlock.getRemainSize, hcap]

/-- The theorem of claim C15 at the scenario manager after eight scalars, whose block
is full. -/
theorem retry_on_new_block_succeeds_witness :
    ((allocMany 8 4 8192 8 pool64).1.getMem 8 4 8192 8).2 = .ok 8192 ∧
    ((allocMany 8 4 8192 8 pool64).1.getMem 8 4 8192 8).1._activeBlock =
      { _begin := 8192, _ptr := 8192 + toSizeT 8, _end := 8192 + 64 } :=
  have hr : Reachable 8 (allocMany 8 4 8192 8 pool64).1 :=
    .alloc _ _ _ _ (.alloc _ _ _ _ (.alloc _ _ _ _ (.alloc _ _ _ _ (.alloc _ _ _ _
      (.alloc _ _ _ _ (.alloc _ _ _ _ (.alloc _ _ _ _ (reachable_pool64 8))))))))
  have h := retry_on_new_block_succeeds 8 4 8192 (allocMany 8 4 8192 8 pool64).1 8 hr
    (by decide) rfl (by decide)
  ⟨h.2.1, h.2.2.1⟩

/-- Claim C16.  In a reachable manager every block has its cursor between its begin and
its end, and is as long as the block size of the manager. -/
theorem blocks_within_bounds (S : Nat) (st : MemMgr) (hr : Reachable S st) :
    ∀ blk ∈ st.blocks, blk._begin ≤ blk._ptr ∧ blk._ptr ≤ blk._end ∧
      blk._end - blk._begin = st._blockSize := by
  intro blk hblk
  obtain ⟨h1, h2, h3, _⟩ := hr.blocksOk blk hblk
  exact ⟨h1, h2, by omega⟩

/-- The theorem of claim C16 at the scenario manager after nine scalars, with two
blocks. -/
theorem blocks_within_bounds_witness :
    (allocMany 8 4 8192 9 pool64).1.blocks =
      [{ _begin := 8192, _ptr := 8200, _end := 8256 },
        { _begin := 4096, _ptr := 4160, _end := 4160 }] ∧
    ∀ blk ∈ (allocMany 8 4 8192 9 pool64).1.blocks, blk._begin ≤ blk._ptr ∧
      blk._ptr ≤ blk._end ∧ blk._end - blk._begin = (allocMany 8 4 8192 9 pool64).1._blockSize :=
  ⟨rfl, blocks_within_bounds 8 (allocMany 8 4 8192 9 pool64).1
    (.alloc _ _ _ _ (.alloc _ _ _ _ (.alloc _ _ _ _ (.alloc _ _ _ _ (.alloc _ _ _ _
      (.alloc _ _ _ _ (.alloc _ _ _ _ (.alloc _ _ _ _ (.alloc _ _ _ _
        (reachable_pool64 8))))))))))⟩

/-- Claim C17.  In a reachable manager the cursor of every block is a word multiple away
from the begin of the block.  An address returned by `getMem` is a word multiple away
from the begin of the block that is active behind the call, which is the block it was
taken from.  When a request retires the active block and `remain_size > S`, the list
for the element count of the rest holds the old cursor, a word multiple away from the
begin of the retired block. -/
theorem cursors_word_aligned (S fuel nb : Nat) (st : MemMgr) (t : Nat)
    (hr : Reachable S st) :
    (∀ blk ∈ st.blocks, blk._begin ≤ blk._ptr ∧ (blk._ptr - blk._begin) % SIZE_T = 0) ∧
    (∀ q, (st.getMem S fuel nb t).2 = .ok q →
      (st.getMem S fuel nb t).1._activeBlock._begin ≤ q ∧
      (q - (st.getMem S fuel nb t).1._activeBlock._begin) % SIZE_T = 0) ∧
    (∀ n, toSizeT t ≤ st._blockSize → getArraySize S (toSizeT t) = .ok n →
      st._activeBlock.getRemainSize < toSizeT t →
      S < downtoSizeT st._activeBlock.getRemainSize →
      ((st.getMem S fuel nb t).1._recycleList
          (slotOf ((downtoSizeT st._activeBlock.getRemainSize - SIZE_T) / S))).rest =
        [{ _arrSize := (downtoSizeT st._activeBlock.getRemainSize - SIZE_T) / S
           _first := st._activeBlock._ptr }] ∧
      st._activeBlock._begin ≤ st._activeBlock._ptr ∧
      (st._activeBlock._ptr - st._activeBlock._begin) % SIZE_T = 0) := by
  have h := hr.headsEmpty
  have hb := hr.blocksOk
  have hact := hb st._activeBlock (List.mem_cons_self _ _)
  refine ⟨fun blk hblk => ⟨(hb blk hblk).1, (hb blk hblk).2.2.2⟩, ?_, ?_⟩
  · intro q hq
    by_cases hcap : toSizeT t ≤ st._blockSize
    · cases hn : getArraySize S (toSizeT t) with
      | error e => rw [getMem_fault S fuel nb st t e hcap hn] at hq; cases hq
      | ok n =>
        obtain ⟨h1, h2⟩ := getMem_blocks S fuel nb st t n h hcap hn
        by_cases hfit : toSizeT t ≤ st._activeBlock.getRemainSize
        · obtain ⟨hq2, hbl⟩ := h1 hfit
          rw [hq2] at hq
          injection hq with hq
          unfold MemMgr.blocks at hbl
          injection hbl with ha _
          rw [ha, ← hq]
          exact ⟨hact.1, hact.2.2.2⟩
        · obtain ⟨hq2, hbl⟩ := h2 hfit
          rw [hq2] at hq
          injection hq with hq
          unfold MemMgr.blocks at hbl
          injection hbl with ha _
          rw [ha, ← hq]
          exact ⟨Nat.le_refl _, by simp⟩
    · rw [getMem_badAlloc S fuel nb st t (Nat.lt_of_not_le hcap)] at hq; cases hq
  · intro n hcap hn hfull hsal
    refine ⟨?_, hact.1, hact.2.2.2⟩
    rw [getMem_headsEmpty S fuel nb st t n h hcap hn, if_neg (Nat.not_le.mpr hfull)]
    have hrr := recycleRemain_headsEmpty S fuel (withList st n) st._activeBlock._ptr
      (headsEmpty_withList st n h)
    have hsame : (withList st n)._activeBlock = st._activeBlock := rfl
    rw [hsame, if_pos hsal] at hrr
    show (((withList st n).recycleRemain S fuel st._activeBlock._ptr).1._recycleList _).rest = _
    rw [hrr]
    simp [MemMgr.pushFrontAt, withList, RecycleChain.set, RecycleChain.get,
      MemRecycleList.pushFront]

/-- The theorem of claim C17 at the scenario manager after five scalars and a request
of 32 bytes, which retires the first block with 24 bytes left. -/
theorem cursors_word_aligned_witness :
    ((allocMany 8 4 8192 5 pool64).1.getMem 8 4 8192 32).2 = .ok 8192 ∧
    (((allocMany 8 4 8192 5 pool64).1.getMem 8 4 8192 32).1._activeBlock._begin ≤ 8192 ∧
      (8192 - ((allocMany 8 4 8192 5 pool64).1.getMem 8 4 8192 32).1._activeBlock._begin)
        % SIZE_T = 0) ∧
    ((allocMany 8 4 8192 5 pool64).1.getMem 8 4 8192 32).1._recycleList (slotOf 2) =
      { head := { _arrSize := 2, _first := 0 }
        rest := [{ _arrSize := 2, _first := 4136 }] } ∧
    (4136 - (allocMany 8 4 8192 5 pool64).1._activeBlock._begin) % SIZE_T = 0 :=
  have hr : Reachable 8 (allocMany 8 4 8192 5 pool64).1 :=
    .alloc _ _ _ _ (.alloc _ _ _ _ (.alloc _ _ _ _ (.alloc _ _ _ _ (.alloc _ _ _ _
      (reachable_pool64 8)))))
  have h := cursors_word_aligned 8 4 8192 (allocMany 8 4 8192 5 pool64).1 32 hr
  ⟨rfl, h.2.1 8192 rfl, rfl, (h.2.2 3 (by decide) rfl (by decide) (by decide)).2.2⟩

/-- Claim C18.  In a reachable manager the list of every table entry itself is empty, so
`numElm` of the entry is 0 and the loop of `getMemRecycleList` makes no iteration: the
call returns a new empty list at position 1, which replaces the chain of the entry.
The probe of `getMem` returns null, and a successful `getMem` returns the cursor of the
active block, which it moves on, or the begin of a new block.  An address `p` outside
the unallocated span of the active block, such as one freed or salvaged before, is not
returned, given that the address for a new block is not `p`. -/
theorem allocation_never_recycles (S fuel nb : Nat) (st : MemMgr) (t : Nat)
    (hr : Reachable S st) :
    (∀ i, (st._recycleList i).head._first = 0) ∧
    (∀ i, (st._recycleList i).head.numElm fuel st.mem = some 0) ∧
    (∀ n, (st._recycleList (slotOf n)).search n 0 0 = (false, 0)) ∧
    (∀ n, (st.getMemRecycleList fuel n).2 = .ok (slotOf n, 1) ∧
      (st.getMemRecycleList fuel n).1._recycleList (slotOf n) =
        { head := (st._recycleList (slotOf n)).head
          rest := [{ _arrSize := n, _first := 0 }] }) ∧
    (∀ q, (st.probe S fuel (toSizeT t)).2 = .ok q → q = 0) ∧
    (∀ q, (st.getMem S fuel nb t).2 = .ok q →
      (toSizeT t ≤ st._activeBlock.getRemainSize ∧ q = st._activeBlock._ptr ∧
        (st.getMem S fuel nb t).1._activeBlock =
          { st._activeBlock with _ptr := st._activeBlock._ptr + toSizeT t }) ∨
      (st._activeBlock.getRemainSize < toSizeT t ∧ q = nb ∧
        (st.getMem S fuel nb t).1._activeBlock =
          { _begin := nb, _ptr := nb + toSizeT t, _end := nb + st._blockSize })) ∧
    (1 ≤ S → ∀ p q, ¬ (st._activeBlock._ptr ≤ p ∧ p < st._activeBlock._end) → nb ≠ p →
      (st.getMem S fuel nb t).2 = .ok q → q ≠ p) := by
  have h := hr.headsEmpty
  have hserved : ∀ q, (st.getMem S fuel nb t).2 = .ok q →
      S ≤ toSizeT t ∧
      ((toSizeT t ≤ st._activeBlock.getRemainSize ∧ q = st._activeBlock._ptr ∧
        (st.getMem S fuel nb t).1._activeBlock =
          { st._activeBlock with _ptr := st._activeBlock._ptr + toSizeT t }) ∨
      (st._activeBlock.getRemainSize < toSizeT t ∧ q = nb ∧
        (st.getMem S fuel nb t).1._activeBlock =
          { _begin := nb, _ptr := nb + toSizeT t, _end := nb + st._blockSize })) := by
    intro q hq
    by_cases hcap : toSizeT t ≤ st._blockSize
    · cases hn : getArraySize S (toSizeT t) with
      | error e => rw [getMem_fault S fuel nb st t e hcap hn] at hq; cases hq
      | ok n =>
        refine ⟨(getArraySize_ok_inv S _ n hn).2.1, ?_⟩
        obtain ⟨h1, h2⟩ := getMem_blocks S fuel nb st t n h hcap hn
        by_cases hfit : toSizeT t ≤ st._activeBlock.getRemainSize
        · obtain ⟨hq2, hbl⟩ := h1 hfit
          rw [hq2] at hq
          injection hq with hq
          unfold MemMgr.blocks at hbl
          injection hbl with ha _
          exact Or.inl ⟨hfit, hq.symm, ha⟩
        · obtain ⟨hq2, hbl⟩ := h2 hfit
          rw [hq2] at hq
          injection hq with hq
          unfold MemMgr.blocks at hbl
          injection hbl with ha _
          exact Or.inr ⟨Nat.lt_of_not_le hfit, hq.symm, ha⟩
    · rw [getMem_badAlloc S fuel nb st t (Nat.lt_of_not_le hcap)] at hq; cases hq
  refine ⟨h, ?_, ?_, ?_, ?_, fun q hq => (hserved q hq).2, ?_⟩
  · intro i
    simp [MemRecycleList.numElm, h i, numElmFrom_null]
  · intro n
    rfl
  · intro n
    rw [getMemRecycleList_headsEmpty fuel st n h]
    exact ⟨rfl, by simp [withList]⟩
  · intro q hq
    obtain ⟨n, hn⟩ := getArraySize_of_probe S fuel st _ q hq
    rw [probe_headsEmpty S fuel st _ n h hn] at hq
    injection hq with hq
    exact hq.symm
  · intro hS p q hp hnb hq
    obtain ⟨hSt, hcase⟩ := hserved q hq
    rcases hcase with ⟨hfit, hqe, _⟩ | ⟨_, hqe, _⟩
    · intro hpq
      apply hp
      unfold MemBlock.getRemainSize at hfit
      omega
    · rw [hqe]; exact hnb

/-- The theorem of claim C18 at the scenario manager after nine scalars and
`free(4112)`: the list for the length 0 holds 4112, and `getMem` returns 8200. -/
theorem allocation_never_recycles_witness :
    (((allocMany 8 4 8192 9 pool64).1.free 4 4112).1._recycleList (slotOf 0)).rest =
      [{ _arrSize := 0, _first := 4112 }] ∧
    (((allocMany 8 4 8192 9 pool64).1.free 4 4112).1.getMem 8 4 12288 8).2 = .ok 8200 ∧
    (8200 : Nat) ≠ 4112 :=
  have hr : Reachable 8 ((allocMany 8 4 8192 9 pool64).1.free 4 4112).1 :=
    .free _ _ _ (.alloc _ _ _ _ (.alloc _ _ _ _ (.alloc _ _ _ _ (.alloc _ _ _ _
      (.alloc _ _ _ _ (.alloc _ _ _ _ (.alloc _ _ _ _ (.alloc _ _ _ _ (.alloc _ _ _ _
        (reachable_pool64 8))))))))))
  ⟨rfl, rfl, (allocation_never_recycles 8 4 12288
    ((allocMany 8 4 8192 9 pool64).1.free 4 4112).1 8 hr).2.2.2.2.2.2 (by decide) 4112 8200
      (by decide) (by decide) rfl⟩

/-- Claim C19.  Start from a reachable manager whose blocks do not overlap, such as the
one left by the constructor or by `reset`, and make any sequence of calls other than
`reset`, each new block at an address that is fresh.  Every piece of memory handed out
lies inside the block that is active behind its call, no two pieces overlap, and no
rest of a retired block that was pushed on a recycle list overlaps any of them. -/
theorem served_spans_disjoint (S fuel : Nat) (calls : List Call) (st : MemMgr)
    (hr : Reachable S st) (hap : st.blocks.Pairwise MemBlock.Apart)
    (hfresh : FreshAll S fuel calls st) :
    (∀ e ∈ servedAll S fuel calls st,
      e.2._begin ≤ e.1.addr ∧ e.1.addr + e.1.size ≤ e.2._end) ∧
    (servedAll S fuel calls st).Pairwise (fun e f => e.1.Disjoint f.1) ∧
    (∀ z ∈ salvagedAll S fuel calls st, ∀ e ∈ servedAll S fuel calls st,
      z.Disjoint e.1) := by
  obtain ⟨h1, h2, h3, _⟩ :=
    calls_disjoint S fuel calls st ⟨hr.headsEmpty, hr.blocksOk, hap⟩ hfresh
  exact ⟨h1, h2, h3⟩

/-- The theorem of claim C19 at the calls of the scenario. -/
theorem served_spans_disjoint_witness :
    (servedAll 8 4 scenarioCalls pool64).map Prod.fst =
      [⟨4096, 8⟩, ⟨4104, 8⟩, ⟨4112, 8⟩, ⟨4120, 8⟩, ⟨4128, 8⟩, ⟨8192, 32⟩, ⟨8224, 24⟩] ∧
    salvagedAll 8 4 scenarioCalls pool64 = [⟨4136, 24⟩] ∧
    (servedAll 8 4 scenarioCalls pool64).Pairwise (fun e f => e.1.Disjoint f.1) ∧
    (∀ z ∈ salvagedAll 8 4 scenarioCalls pool64, ∀ e ∈ servedAll 8 4 scenarioCalls pool64,
      z.Disjoint e.1) :=
  have h := served_spans_disjoint 8 4 scenarioCalls pool64 (reachable_pool64 8)
    (List.pairwise_singleton _ pool64._activeBlock)
    (by
      refine ⟨?_, ?_, ?_, ?_, ?_, ?_, ?_, trivial⟩ <;>
        simp only [Call.IsFresh, Fresh] <;> decide)
  ⟨by decide, by decide, h.2.1, h.2.2⟩

/-- Claim C20.  For `S ≥ 1` and a word multiple `r > S`, `getArraySize(r)` passes its
assertions with the element count `rn = (r - SIZE_T) / S`.  If `rn ≥ 1`, a request of
`rn` elements and one word, promoted, fits in `r`, and one of `rn + 1` elements does
not; if `rn = 0`, the promoted scalar size fits in `r`. -/
theorem salvage_count_fits (S r : Nat) (hS : 1 ≤ S) (h8 : r % SIZE_T = 0) (hr : S < r) :
    getArraySize S r = .ok ((r - SIZE_T) / S) ∧
    (1 ≤ (r - SIZE_T) / S →
      toSizeT ((r - SIZE_T) / S * S + SIZE_T) ≤ r ∧
      r < ((r - SIZE_T) / S + 1) * S + SIZE_T) ∧
    ((r - SIZE_T) / S = 0 → toSizeT S ≤ r) := by
  have h8' : r % 8 = 0 := h8
  have hup : ∀ x, x ≤ r → toSizeT x ≤ r := by
    intro x hx
    unfold toSizeT
    split
    · exact hx
    · rename_i hx8
      have hx8 : x % 8 ≠ 0 := hx8
      show (x - x % 8 + 8) % 18446744073709551616 ≤ r
      have := Nat.mod_le (x - x % 8 + 8) 18446744073709551616
      omega
  have hmul : (r - SIZE_T) / S * S ≤ r - SIZE_T := Nat.div_mul_le_self _ _
  have hlt : r - SIZE_T < ((r - SIZE_T) / S + 1) * S := by
    have := Nat.lt_div_mul_add (a := r - SIZE_T) (b := S) (by omega)
    rw [Nat.add_mul, Nat.one_mul]
    exact this
  refine ⟨getArraySize_ok S r h8 (Nat.le_of_lt hr), fun _ => ⟨?_, ?_⟩, fun _ => ?_⟩
  · apply hup
    have : r - SIZE_T + SIZE_T = r := by show r - 8 + 8 = r; omega
    omega
  · show r < _ + 8
    have : r - SIZE_T = r - 8 := rfl
    omega
  · exact hup S (Nat.le_of_lt hr)

/-- The theorem of claim C20 at `S = 8` and a rest of 24 bytes. -/
theorem salvage_count_fits_witness :
    getArraySize 8 24 = .ok 2 ∧ toSizeT (2 * 8 + SIZE_T) ≤ 24 ∧ 24 < (2 + 1) * 8 + SIZE_T :=
  have h := salvage_count_fits 8 24 (by decide) (by decide) (by decide)
  ⟨h.1, (h.2.1 (by decide)).1, (h.2.1 (by decide)).2⟩

end Hw4
